import Mathlib

/-- Model of `treedir_t` / namespace `TreeDirection` (btree.hpp lines 21-28). -/
inductive TreeDir where
  | root : TreeDir
  | left : TreeDir
  | right : TreeDir

deriving instance DecidableEq, Repr for TreeDir

/-- Model of `BinaryLeaf<T>` (btree.hpp lines 45-100): `nil` is a null
`BinaryLeaf<T>*`; `node value depth dir right left` mirrors the fields
`mValue`, `mDepth`, `mDirection`, `mRight`, `mLeft` (declared in that order). -/
inductive BTree (α : Type) where
  | nil : BTree α
  | node (value : α) (depth : Nat) (direction : TreeDir) (right left : BTree α) : BTree α

deriving instance DecidableEq for BTree

/-- Field access `mDepth` (0 on a null pointer, which the code never reads). -/
def depthOf {α : Type} : BTree α → Nat
  | .nil => 0
  | .node _ d _ _ _ => d

/-- Field access `mDirection`. -/
def dirOf {α : Type} : BTree α → TreeDir
  | .nil => .root
  | .node _ _ dir _ _ => dir

/-- Field access `mRight` / `GetRightChild` (btree.hpp line 223). -/
def rightOf {α : Type} : BTree α → BTree α
  | .nil => .nil
  | .node _ _ _ r _ => r

/-- Field access `mLeft` / `GetLeftChild` (btree.hpp line 218). -/
def leftOf {α : Type} : BTree α → BTree α
  | .nil => .nil
  | .node _ _ _ _ l => l

/-- Null test on a `BinaryLeaf<T>*`. -/
def isNil {α : Type} : BTree α → Bool
  | .nil => true
  | .node _ _ _ _ _ => false

/-- Number of live nodes reachable from (and including) this one. -/
def treeSize {α : Type} : BTree α → Nat
  | .nil => 0
  | .node _ _ _ r l => 1 + treeSize r + treeSize l

/-- Total node count of a work queue of subtrees. -/
def sizeAll {α : Type} (q : List (BTree α)) : Nat := (q.map treeSize).sum

/-- The conditional push `if (x != nullptr) collected.push(x)`:
the singleton queue contribution of one child pointer. -/
def sideList {α : Type} : BTree α → List (BTree α)
  | .nil => []
  | .node v d dir r l => [.node v d dir r l]

/-- What one dequeued leaf pushes in the `Walk` loop (btree.hpp lines 174-182):
`mRight` first, then `mLeft`, null children skipped. -/
def enq {α : Type} : BTree α → List (BTree α)
  | .nil => []
  | .node _ _ _ r l => sideList r ++ sideList l

/-- The initial frontier of `Walk` when `includeSelf` is false
(btree.hpp lines 152-163): the source pushes `mLeft` FIRST, then `mRight`. -/
def seedNoSelf {α : Type} : BTree α → List (BTree α)
  | .nil => []
  | .node _ _ _ r l => sideList l ++ sideList r

/-- The queue loop of `BinaryLeaf::Walk` (btree.hpp lines 165-192) for a
visitor that never requests early stop: returns the visited leaves in order.
Null pointers are never pushed by the source (both `enq` and `seedNoSelf`
filter them), so the skip case for `nil` is unreachable from real states. -/
def walkQueue {α : Type} : List (BTree α) → List (BTree α)
  | [] => []
  | .nil :: ts => walkQueue ts
  | .node v d dir r l :: ts => .node v d dir r l :: walkQueue (ts ++ enq (.node v d dir r l))
termination_by q => 2 * sizeAll q + q.length
decreasing_by
· simp [sizeAll, treeSize]
· simp only [sizeAll, List.map_append, List.sum_append, List.length_append, List.map_cons,
    List.sum_cons, List.length_cons, enq]
  cases r <;> cases l <;> simp [sideList, treeSize] <;> omega

/-- `BinaryLeaf::Walk(walker, includeSelf)` (btree.hpp lines 139-193) as the
list of visited leaves, for a visitor that never stops early. -/
def walk {α : Type} (t : BTree α) (includeSelf : Bool) : List (BTree α) :=
  if includeSelf then walkQueue [t] else walkQueue (seedNoSelf t)

/-- All live nodes of a subtree, root first (specification-side helper used to
relate a breadth-first walk to the structure it visits). -/
def subtreesList {α : Type} : BTree α → List (BTree α)
  | .nil => []
  | .node v d dir r l => .node v d dir r l :: (subtreesList r ++ subtreesList l)

/-- Model of the fresh node built by `new BinaryLeaf<T>(value)` (constructor,
btree.hpp lines 93-101): given value, depth 0, direction ROOT, no children. -/
def freshLeaf {α : Type} (v : α) : BTree α := .node v 0 .root .nil .nil

/-- The depth/direction bookkeeping that `SetLeftChild` / `SetRightChild`
perform on the newly attached child node. -/
def withMeta {α : Type} : BTree α → Nat → TreeDir → BTree α
  | .nil, _, _ => .nil
  | .node v _ _ r l, d, dir => .node v d dir r l

/-- `BinaryLeaf::SetRightChild` (btree.hpp lines 208-214): store the child in
`mRight`, set its depth to `mDepth + 1` and its direction to RIGHT. -/
def setRightChild {α : Type} : BTree α → BTree α → BTree α
  | .nil, _ => .nil
  | .node v d dir _ l, c => .node v d dir (withMeta c (d + 1) .right) l

/-- `BinaryLeaf::SetLeftChild` (btree.hpp lines 200-206). -/
def setLeftChild {α : Type} : BTree α → BTree α → BTree α
  | .nil, _ => .nil
  | .node v d dir r _, c => .node v d dir r (withMeta c (d + 1) .left)

/-- One step of an access path to a node slot.  The C++ code addresses a
pending slot by a pointer `BinaryLeaf<T>**` into a parent's `mRight`/`mLeft`
field (the non-const `GetRightChild`/`GetLeftChild` overloads, btree.hpp
lines 233-241); a slot pointer into a purely functional tree is modelled as
the access path from the root, `R` standing for `mRight`, `L` for `mLeft`. -/
inductive Step where
  | R : Step
  | L : Step

deriving instance DecidableEq, Repr for Step

/-- Writing a freshly created leaf through a slot pointer: this models
`(*leafData.output) = new BinaryLeaf<T>(value)` followed by the
`SetLeftChild`/`SetRightChild` call on `leafData.parent` when that parent is
not null (btree.hpp lines 394-409, identically main.cpp lines 30-45).  The
empty path is the root request (`parent == nullptr`: plain store, no depth or
direction bookkeeping); a path of length one writes through this node's own
slot and performs the corresponding `Set...Child`; a longer path descends. -/
def setSlot {α : Type} : BTree α → List Step → BTree α → BTree α
  | _, [], c => c
  | t, [Step.R], c => setRightChild t c
  | t, [Step.L], c => setLeftChild t c
  | .node v d dir r l, Step.R :: p, c => .node v d dir (setSlot r p c) l
  | .node v d dir r l, Step.L :: p, c => .node v d dir r (setSlot l p c)
  | .nil, _ :: _, _ => .nil

/-- Heap-style position bookkeeping for the pending-slot queue: starting from
position `p`, step `R` leads to `2p` and `L` to `2p+1` (right slots are pushed
before left slots, so after `k` creations the queue holds the slots of
positions `k+1 … 2k+1` in this numbering). -/
def posAt (p : Nat) : List Step → Nat
  | [] => p
  | Step.R :: rest => posAt (2 * p) rest
  | Step.L :: rest => posAt (2 * p + 1) rest

/-- The access path of heap position `i` (meaningful for `i ≥ 1`). -/
def pathOfPos (i : Nat) : List Step :=
  if i ≤ 1 then []
  else pathOfPos (i / 2) ++ [if i % 2 == 0 then Step.R else Step.L]
termination_by i
decreasing_by exact Nat.div_lt_self (by omega) (by omega)

/-- Structural depth of heap position `i`. -/
def posDepth (i : Nat) : Nat :=
  if i ≤ 1 then 0 else posDepth (i / 2) + 1
termination_by i
decreasing_by exact Nat.div_lt_self (by omega) (by omega)

/-- Direction tag of the node at heap position `i`. -/
def dirOfPos (i : Nat) : TreeDir :=
  if i = 1 then .root else if i % 2 == 0 then .right else .left

/-- Decides whether position `m` lies in the subtree of positions below `p`. -/
def inSub (p : Nat) (m : Nat) : Bool :=
  if m = p then true
  else if m ≤ p then false
  else inSub p (m / 2)
termination_by m
decreasing_by exact Nat.div_lt_self (by omega) (by omega)

/-- The tree whose occupied slots are exactly the heap positions `≤ n` inside
the subtree of position `i`, the node at position `j` carrying value `vals j`,
the depth obtained by starting from `d` at `i`, and the direction tag of `j`.
`heapTree vals 1 n 0` is the canonical outcome of filling the first `n`
pending slots in queue order. -/
def heapTree {α : Type} (vals : Nat → α) (i n d : Nat) : BTree α :=
  if 1 ≤ i ∧ i ≤ n then
    .node (vals i) d (dirOfPos i) (heapTree vals (2 * i) n (d + 1))
      (heapTree vals (2 * i + 1) n (d + 1))
  else .nil
termination_by n + 1 - i
decreasing_by all_goals omega

/-- The pure slot-filling loop shared by the Generator and the Deserializer
(the `leaf_generation_data_t` queue algorithm of btree.hpp lines 372-418 and
main.cpp lines 11-63, abstracted over where the values come from): consume one
value per pending slot in FIFO order; after filling a slot, push the new
node's right slot and then its left slot. -/
def fillLoop {α : Type} : List α → List (List Step) → BTree α → BTree α
  | [], _, t => t
  | _ :: _, [], t => t
  | v :: vs, p :: ps, t =>
      fillLoop vs (ps ++ [p ++ [Step.R], p ++ [Step.L]]) (setSlot t p (freshLeaf v))

/-- The loop of `BinaryLeaf::Deserialize` (btree.hpp lines 372-418): while the
stream has data and the population queue is non-empty, read one line; skip it
when blank (`curline.size() <= 0` with `continue`); otherwise parse it, build
`new BinaryLeaf<T>(value)`, write it through the front slot pointer, run the
parent's `SetLeftChild` or `SetRightChild` when the parent is not null, push
the new node's right then left slots, and pop the front request.  The input
stream is modelled by the list of its lines. -/
def deserLoop {α : Type} (fromText : String → α) :
    List String → List (List Step) → BTree α → BTree α
  | _, [], t => t
  | [], _ :: _, t => t
  | line :: rest, p :: ps, t =>
      if line.length ≤ 0 then deserLoop fromText rest (p :: ps) t
      else
        deserLoop fromText rest (ps ++ [p ++ [Step.R], p ++ [Step.L]])
          (setSlot t p (freshLeaf (fromText line)))

/-- `BinaryLeaf<T>::Deserialize(stream, output, valueDeserializer)`: the
initial queue holds the single root request `{ output, nullptr, ROOT }`.
`t0` is the value `*output` holds before the call; it is returned unchanged
when the stream contains no usable line, because the code only writes through
slot pointers. -/
def Deserialize {α : Type} (fromText : String → α) (lines : List String)
    (t0 : BTree α) : BTree α :=
  deserLoop fromText lines [[]] t0

/-- The non-blank lines of the stream, parsed in order: the value sequence
the deserializer actually consumes. -/
def parsedValues {α : Type} (fromText : String → α) (lines : List String) : List α :=
  lines.filterMap fun line => if line.length ≤ 0 then none else some (fromText line)

/-- Value-by-position function read off a parsed value list (position `i`
holds the `i`-th consumed value; the default is never read in range). -/
def listVals {α : Type} (xs : List α) (dflt : α) : Nat → α :=
  fun i => xs.getD (i - 1) dflt

/-- The loop of `GenerateTree` (main.cpp lines 11-63).  The random source
`rand()` is modelled by the stream `vals : Nat → Nat` of its successive
(non-negative) return values; `k` counts the calls made so far; `count`
models `leavesGenerated` (a C++ `int`).  Each iteration draws one value
(`rand() % 255`), creates the node, attaches it through the front slot
pointer, increments the counter and breaks once `leavesGenerated >= maxLeaves`;
otherwise it pushes the right then left slot of the new node and pops the
front request.  Returns the tree root and the number of `rand()` calls. -/
def genLoop (vals : Nat → Nat) (maxLeaves : Int) :
    List (List Step) → BTree Int → Int → Nat → BTree Int × Nat
  | [], t, _, k => (t, k)
  | p :: ps, t, count, k =>
      let leafValue : Int := ((vals k % 255 : Nat) : Int)
      let t2 := setSlot t p (freshLeaf leafValue)
      if maxLeaves ≤ count + 1 then (t2, k + 1)
      else genLoop vals maxLeaves (ps ++ [p ++ [Step.R], p ++ [Step.L]]) t2
        (count + 1) (k + 1)
termination_by q _ count _ => (maxLeaves - count).toNat
decreasing_by omega

/-- `GenerateTree(maxLeaves)` (main.cpp lines 11-63): the queue starts with
the root request, the result pointer starts as `nullptr`, the counter at 0. -/
def GenerateTree (maxLeaves : Int) (vals : Nat → Nat) : BTree Int :=
  (genLoop vals maxLeaves [[]] .nil 0 0).1

/-- Number of `rand()` calls `GenerateTree(maxLeaves)` makes. -/
def GenerateTreeQueries (maxLeaves : Int) (vals : Nat → Nat) : Nat :=
  (genLoop vals maxLeaves [[]] .nil 0 0).2

/-- Number of nodes `GenerateTree` creates: the budget, except that one node
(the root) is always created because the budget check runs after creation. -/
def genCount (maxLeaves : Int) : Nat :=
  if maxLeaves ≤ 1 then 1 else maxLeaves.toNat

/-- Values assigned to generated nodes, indexed by heap position
(creation order): `rand() % 255` of the corresponding draw. -/
def genVals (vals : Nat → Nat) : Nat → Int :=
  fun i => ((vals (i - 1) % 255 : Nat) : Int)

/-- The subtree of the whole `n`-position tree rooted at position `p`, with
its true depth. -/
def heapAt {α : Type} (vals : Nat → α) (n p : Nat) : BTree α :=
  heapTree vals p n (posDepth p)

/-- The tab/depth prefix written in pretty mode (btree.hpp lines 330-348):
at most 32 tabs, and LEFT leaves get one tab fewer, computed in `uint16_t`
arithmetic (so a LEFT leaf at depth 0 would wrap to 65535 tabs; the attach
methods never produce such a leaf). -/
def prettyPad (d : Nat) (dir : TreeDir) : String :=
  let tabDepth := if d < 32 then d else 32
  let tabs := if dir = .left then (tabDepth + 65535) % 65536 else tabDepth
  String.mk (List.replicate tabs '\t') ++ toString d ++ ": "

/-- The line the serializer's visitor writes for one visited leaf: the pretty
prefix (when enabled) followed by the textual form of `mValue`. -/
def lineFor {α : Type} (toText : α → String) (pretty : Bool) : BTree α → String
  | .nil => ""
  | .node v d dir _ _ => (if pretty then prettyPad d dir else "") ++ toText v

/-- The loop of `BinaryLeaf::Serialize` (btree.hpp lines 326-364): a walk
(including self) whose visitor writes the leaf's line and then — when the
depth limit is active and the leaf's depth exceeds it — writes the truncation
marker line `"..."` and stops the walk.  `skipDeep` is a `uint16_t` (callers
passing `-1` pass 65535); the guard `skipDeep != -1` compares the promoted
non-negative `int` value against `-1` and is therefore always true; it is kept
verbatim. -/
def serLoop {α : Type} (toText : α → String) (skipDeep : Nat) (pretty : Bool) :
    List (BTree α) → List String
  | [] => []
  | .nil :: ts => serLoop toText skipDeep pretty ts
  | .node v d dir r l :: ts =>
      lineFor toText pretty (.node v d dir r l) ::
        (if (skipDeep : Int) ≠ -1 ∧ skipDeep < d then ["..."]
         else serLoop toText skipDeep pretty (ts ++ enq (.node v d dir r l)))
termination_by q => 2 * sizeAll q + q.length
decreasing_by
· simp [sizeAll, treeSize]
· simp only [sizeAll, List.map_append, List.sum_append, List.length_append, List.map_cons,
    List.sum_cons, List.length_cons, enq]
  cases r <;> cases l <;> simp [sideList, treeSize] <;> omega

/-- `BinaryLeaf::Serialize(stream, skipDeep, pretty)` as the list of lines
written to the stream. -/
def Serialize {α : Type} (toText : α → String) (t : BTree α) (skipDeep : Nat)
    (pretty : Bool) : List String :=
  serLoop toText skipDeep pretty [t]

/-- Specification-side form of the serializer output: per-visit emission along
the visit list of the walk. -/
def emitLines {α : Type} (toText : α → String) (skipDeep : Nat) (pretty : Bool) :
    List (BTree α) → List String
  | [] => []
  | x :: xs =>
      lineFor toText pretty x ::
        (if skipDeep < depthOf x then ["..."]
         else emitLines toText skipDeep pretty xs)

/-- Every stored depth in the tree is at most `m`.  Any tree held by the C++
program satisfies `depthsLe 65535` because `mDepth` is a `uint16_t`. -/
def depthsLe {α : Type} (m : Nat) : BTree α → Bool
  | .nil => true
  | .node _ d _ r l => decide (d ≤ m) && depthsLe m r && depthsLe m l

/-- Weight contribution of a single leaf: `mDepth * mValue` (`int` arithmetic
in the source, modelled as unbounded `Int`). -/
def ownWeight : BTree Int → Int
  | .nil => 0
  | .node v d _ _ _ => (d : Int) * v

/-- Structural sum of `mDepth * mValue` over a node and all its descendants. -/
def nodeWeight : BTree Int → Int
  | .nil => 0
  | .node v d _ r l => (d : Int) * v + nodeWeight r + nodeWeight l

/-- `BinaryLeaf::GetWeightSumChildrenRatio` (btree.hpp lines 263-288): walk
all descendants (excluding self), counting them (`children`) and adding their
`mDepth * mValue` to a sum initialized with this leaf's own weight; clamp the
count to at least 1 and divide.  The C++ `double` division of two exactly
representable `int` values is modelled exactly in `ℚ`. -/
def GetWeightSumChildrenRatioQ (t : BTree Int) : ℚ :=
  let descs := walk t false
  let children : Nat := descs.length
  let weightSum : Int := ownWeight t + (descs.map ownWeight).sum
  ((weightSum : ℚ) / ((max 1 children : Nat) : ℚ))

/-- The four outputs of the min/max search, passed by reference in the C++
(`outputMin`, `outputMinHolder`, `outputMax`, `outputMaxHolder`); a null
holder pointer is `none`. -/
structure MMState where
  minVal : ℚ
  minHolder : Option (BTree Int)
  maxVal : ℚ
  maxHolder : Option (BTree Int)

deriving instance DecidableEq for MMState

/-- `BinaryLeaf::GetMinMaxWeightSumChildrenRatio` (btree.hpp lines 296-315):
one walk including self; for each visited leaf compute its ratio and update
the min and then the max output under strict comparisons. -/
def GetMinMaxWeightSumChildrenRatioQ (t : BTree Int) (st0 : MMState) : MMState :=
  (walkQueue [t]).foldl
    (fun st leaf =>
      let ratioQ := GetWeightSumChildrenRatioQ leaf
      let st1 : MMState :=
        if ratioQ < st.minVal then ⟨ratioQ, some leaf, st.maxVal, st.maxHolder⟩ else st
      if ratioQ > st1.maxVal then ⟨st1.minVal, st1.minHolder, ratioQ, some leaf⟩ else st1)
    st0

/-- The search as `main` performs it (main.cpp lines 126-137): accumulators
seeded with the finite sentinels `minRatio = 99999999.0` and `maxRatio = 0.0`,
holder pointers null. -/
def mainSearch (t : BTree Int) : MMState :=
  GetMinMaxWeightSumChildrenRatioQ t ⟨99999999, none, 0, none⟩

/-- Every node having a left child also has a right child. -/
def leftImpliesRight {α : Type} : BTree α → Bool
  | .nil => true
  | .node _ _ _ r l =>
      (isNil l || !(isNil r)) && leftImpliesRight r && leftImpliesRight l

/-- The stored depth of this node is `d` and every child's stored depth is its
parent's plus one (so with `d = 0`: root depth 0, child depth = parent + 1). -/
def depthOkB {α : Type} (d : Nat) : BTree α → Bool
  | .nil => true
  | .node _ dd _ r l => (dd == d) && depthOkB (d + 1) r && depthOkB (d + 1) l

/-- All stored values lie within the closed interval `[lo, hi]`. -/
def valuesInRange (lo hi : Int) : BTree Int → Bool
  | .nil => true
  | .node v _ _ r l =>
      decide (lo ≤ v) && decide (v ≤ hi) && valuesInRange lo hi r &&
        valuesInRange lo hi l

/-- Model of the parsing lambda `std::stoi` (main.cpp lines 85-88) on
well-formed decimal tokens: optional leading minus, then decimal digits. -/
def digitsToNat : List Char → Nat → Nat
  | [], acc => acc
  | c :: cs, acc => digitsToNat cs (acc * 10 + (c.toNat - 48))

/-- Parse a decimal integer token (model of `std::stoi` on valid input). -/
def intOfText (s : String) : Int :=
  match s.data with
  | '-' :: cs => - (digitsToNat cs 0 : Nat)
  | cs => (digitsToNat cs 0 : Nat)

/-- Decimal digit list of a natural number (model of `stream << value`). -/
def natToChars (n : Nat) : List Char :=
  if n < 10 then [Char.ofNat (48 + n)]
  else natToChars (n / 10) ++ [Char.ofNat (48 + n % 10)]
termination_by n
decreasing_by exact Nat.div_lt_self (by omega) (by omega)

/-- Decimal text form of an integer (model of `stream << value` for `int`). -/
def intToText (n : Int) : String :=
  if n < 0 then String.mk ('-' :: natToChars (-n).toNat)
  else String.mk (natToChars n.toNat)

theorem sizeAll_append {α : Type} (xs ys : List (BTree α)) :
    sizeAll (xs ++ ys) = sizeAll xs + sizeAll ys := by
  simp [sizeAll]

theorem subtreesList_length {α : Type} (t : BTree α) :
    (subtreesList t).length = treeSize t := by
  induction t with
  | nil => simp [subtreesList, treeSize]
  | node v d dir r l ihr ihl =>
      simp [subtreesList, treeSize, ihr, ihl]; omega

theorem enq_bind_subtrees {α : Type} (v : α) (d : Nat) (dir : TreeDir) (r l : BTree α) :
    (enq (.node v d dir r l)).flatMap subtreesList = subtreesList r ++ subtreesList l := by
  cases r <;> cases l <;> simp [enq, sideList, subtreesList]

/-- The breadth-first walk visits exactly the nodes of the queued subtrees
(as a permutation). -/
theorem walkQueue_perm {α : Type} (q : List (BTree α)) :
    (walkQueue q).Perm (q.flatMap subtreesList) := by
  induction q using walkQueue.induct with
  | case1 => simp [walkQueue]
  | case2 ts ih =>
      rw [walkQueue]
      simpa [subtreesList] using ih
  | case3 v d dir r l ts ih =>
      rw [walkQueue]
      refine List.Perm.trans (List.Perm.cons _ ih) ?_
      simp only [List.flatMap_append, List.flatMap_cons, subtreesList,
        enq_bind_subtrees, List.cons_append]
      exact List.Perm.cons _ List.perm_append_comm

theorem walkQueue_length {α : Type} (q : List (BTree α)) :
    (walkQueue q).length = sizeAll q := by
  rw [(walkQueue_perm q).length_eq]
  induction q with
  | nil => simp [sizeAll]
  | cons t ts ih =>
      simp only [List.flatMap_cons, List.length_append, ih, sizeAll, List.map_cons,
        List.sum_cons, subtreesList_length]

theorem mem_walkQueue_iff {α : Type} {q : List (BTree α)} {x : BTree α} :
    x ∈ walkQueue q ↔ x ∈ q.flatMap subtreesList :=
  (walkQueue_perm q).mem_iff

theorem sideList_flatMap_subtrees {α : Type} (t : BTree α) :
    (sideList t).flatMap subtreesList = subtreesList t := by
  cases t <;> simp [sideList, subtreesList]

theorem mem_subtreesList_size_le {α : Type} {t x : BTree α} (h : x ∈ subtreesList t) :
    treeSize x ≤ treeSize t := by
  induction t with
  | nil => simp [subtreesList] at h
  | node v d dir r l ihr ihl =>
      simp only [subtreesList, List.mem_cons, List.mem_append] at h
      rcases h with h | h | h
      · exact h ▸ Nat.le_refl _
      · exact (ihr h).trans (by simp only [treeSize]; omega)
      · exact (ihl h).trans (by simp only [treeSize]; omega)

theorem mem_walk_false_size_lt {α : Type} {t x : BTree α} (h : x ∈ walk t false) :
    treeSize x < treeSize t := by
  cases t with
  | nil => simp [walk, seedNoSelf, walkQueue] at h
  | node v d dir r l =>
      simp only [walk, if_neg (by simp : ¬ (false = true)), seedNoSelf] at h
      rw [mem_walkQueue_iff, List.flatMap_append, sideList_flatMap_subtrees,
        sideList_flatMap_subtrees, List.mem_append] at h
      rcases h with h | h
      · have := mem_subtreesList_size_le h
        simp only [treeSize]; omega
      · have := mem_subtreesList_size_le h
        simp only [treeSize]; omega

/-- The multiset of `delete` calls triggered by `delete leaf`: the leaf
itself, then the deletes performed by its destructor `~BinaryLeaf`
(btree.hpp lines 104-112), which walks all descendants (excluding self) and
deletes each — and each such delete recursively runs that node's own
destructor first.  In real execution the outer walk reads the child pointers
of nodes already freed by inner destructors; the model keeps the pre-free
pointer values, which is what the happy path would read. -/
def delList {α : Type} (t : BTree α) : List (BTree α) :=
  t :: ((walk t false).attach.flatMap (fun x => delList x.1))
termination_by treeSize t
decreasing_by exact mem_walk_false_size_lt x.2

/-- The `delete` calls the destructor of `t` itself performs (its `Walk` with
`includeSelf = false`, deleting every visited leaf). -/
def destructorDeletes {α : Type} (t : BTree α) : List (BTree α) :=
  (walk t false).attach.flatMap (fun x => delList x.1)

theorem heapTree_unfold {α : Type} (vals : Nat → α) (i n d : Nat) :
    heapTree vals i n d =
      if 1 ≤ i ∧ i ≤ n then
        .node (vals i) d (dirOfPos i) (heapTree vals (2 * i) n (d + 1))
          (heapTree vals (2 * i + 1) n (d + 1))
      else .nil := by
  rw [heapTree]

theorem posAt_append (p : Nat) (a b : List Step) :
    posAt p (a ++ b) = posAt (posAt p a) b := by
  induction a generalizing p with
  | nil => rfl
  | cons s rest ih => cases s <;> simp [posAt, ih]

theorem le_posAt (p : Nat) (path : List Step) : p ≤ posAt p path := by
  induction path generalizing p with
  | nil => exact Nat.le_refl p
  | cons s rest ih =>
      cases s
      · exact le_trans (by omega) (ih (2 * p))
      · exact le_trans (by omega) (ih (2 * p + 1))

theorem two_mul_le_posAt (p : Nat) (s : Step) (rest : List Step) :
    2 * p ≤ posAt p (s :: rest) := by
  cases s
  · exact le_posAt (2 * p) rest
  · exact le_trans (by omega) (le_posAt (2 * p + 1) rest)

theorem pathOfPos_one : pathOfPos 1 = [] := by
  rw [pathOfPos]
  simp

theorem pathOfPos_two_mul (i : Nat) (h : 1 ≤ i) :
    pathOfPos (2 * i) = pathOfPos i ++ [Step.R] := by
  rw [pathOfPos]
  have h1 : ¬ (2 * i ≤ 1) := by omega
  have h2 : 2 * i / 2 = i := by omega
  have h3 : 2 * i % 2 = 0 := by omega
  rw [if_neg h1, h2, h3]
  simp

theorem pathOfPos_two_mul_add_one (i : Nat) (h : 1 ≤ i) :
    pathOfPos (2 * i + 1) = pathOfPos i ++ [Step.L] := by
  rw [pathOfPos]
  have h1 : ¬ (2 * i + 1 ≤ 1) := by omega
  have h2 : (2 * i + 1) / 2 = i := by omega
  have h3 : (2 * i + 1) % 2 = 1 := by omega
  rw [if_neg h1, h2, h3]
  simp

theorem posDepth_one : posDepth 1 = 0 := by
  rw [posDepth]
  simp

theorem posDepth_two_mul (i : Nat) (h : 1 ≤ i) :
    posDepth (2 * i) = posDepth i + 1 := by
  rw [posDepth]
  have h1 : ¬ (2 * i ≤ 1) := by omega
  have h2 : 2 * i / 2 = i := by omega
  rw [if_neg h1, h2]

theorem posDepth_two_mul_add_one (i : Nat) (h : 1 ≤ i) :
    posDepth (2 * i + 1) = posDepth i + 1 := by
  rw [posDepth]
  have h1 : ¬ (2 * i + 1 ≤ 1) := by omega
  have h2 : (2 * i + 1) / 2 = i := by omega
  rw [if_neg h1, h2]

theorem posAt_pathOfPos : ∀ i, 1 ≤ i → posAt 1 (pathOfPos i) = i := by
  intro i
  induction i using Nat.strong_induction_on with
  | _ i ih =>
      intro hi
      by_cases h1 : i ≤ 1
      · have : i = 1 := by omega
        subst this
        rw [pathOfPos_one]
        rfl
      · rw [pathOfPos, if_neg h1, posAt_append]
        have hrec := ih (i / 2) (by omega) (by omega)
        rw [hrec]
        by_cases hm : i % 2 = 0
        · have : (i % 2 == 0) = true := by simp [hm]
          rw [this]
          simp only [posAt]
          omega
        · have : (i % 2 == 0) = false := by simp [hm]
          rw [this]
          simp only [posAt]
          omega

theorem inSub_self (p : Nat) : inSub p p = true := by
  rw [inSub]
  simp

theorem inSub_of_lt {p m : Nat} (h : m < p) : inSub p m = false := by
  rw [inSub]
  rw [if_neg (by omega), if_pos (by omega)]

theorem inSub_up {p c : Nat} (hp : 1 ≤ p) (hc : c = 2 * p ∨ c = 2 * p + 1) :
    ∀ m, inSub c m = true → inSub p m = true := by
  intro m
  induction m using Nat.strong_induction_on with
  | _ m ih =>
      intro h
      rw [inSub] at h
      split_ifs at h with h1 h2
      · subst h1
        rw [inSub]
        have e1 : ¬ (m = p) := by rcases hc with rfl | rfl <;> omega
        have e2 : ¬ (m ≤ p) := by rcases hc with rfl | rfl <;> omega
        rw [if_neg e1, if_neg e2]
        have e3 : m / 2 = p := by rcases hc with rfl | rfl <;> omega
        rw [e3]
        exact inSub_self p
      · have hcp : p < c := by rcases hc with rfl | rfl <;> omega
        have hm : inSub p (m / 2) = true := ih (m / 2) (by omega) h
        rw [inSub, if_neg (by omega), if_neg (by omega)]
        exact hm

theorem sib_disj_right {p : Nat} (hp : 1 ≤ p) :
    ∀ m, inSub (2 * p) m = true → inSub (2 * p + 1) m = false := by
  intro m
  induction m using Nat.strong_induction_on with
  | _ m ih =>
      intro h
      rw [inSub] at h
      split_ifs at h with h1 h2
      · subst h1
        exact inSub_of_lt (by omega)
      · by_cases hm : m = 2 * p + 1
        · rw [hm] at h
          have : (2 * p + 1) / 2 = p := by omega
          rw [this, inSub_of_lt (by omega)] at h
          exact absurd h (by simp)
        · rw [inSub, if_neg hm, if_neg (by omega)]
          exact ih (m / 2) (by omega) h

theorem sib_disj_left {p : Nat} (hp : 1 ≤ p) :
    ∀ m, inSub (2 * p + 1) m = true → inSub (2 * p) m = false := by
  intro m
  induction m using Nat.strong_induction_on with
  | _ m ih =>
      intro h
      rw [inSub] at h
      split_ifs at h with h1 h2
      · subst h1
        rw [inSub, if_neg (by omega), if_neg (by omega)]
        have : (2 * p + 1) / 2 = p := by omega
        rw [this]
        exact inSub_of_lt (by omega)
      · rw [inSub, if_neg (by omega), if_neg (by omega)]
        exact ih (m / 2) (by omega) h

theorem posAt_inSub : ∀ (path : List Step) (p : Nat), 1 ≤ p →
    inSub p (posAt p path) = true := by
  intro path
  induction path with
  | nil => intro p hp; exact inSub_self p
  | cons s rest ih =>
      intro p hp
      cases s
      · exact inSub_up hp (Or.inl rfl) _ (ih (2 * p) (by omega))
      · exact inSub_up hp (Or.inr rfl) _ (ih (2 * p + 1) (by omega))

theorem heapTree_eq_nil {α : Type} (vals : Nat → α) {q n d : Nat}
    (h : ¬ (1 ≤ q ∧ q ≤ n)) : heapTree vals q n d = .nil := by
  rw [heapTree_unfold, if_neg h]

theorem heapTree_eq_node {α : Type} (vals : Nat → α) {q n : Nat} (d : Nat)
    (h : 1 ≤ q ∧ q ≤ n) :
    heapTree vals q n d =
      .node (vals q) d (dirOfPos q) (heapTree vals (2 * q) n (d + 1))
        (heapTree vals (2 * q + 1) n (d + 1)) := by
  rw [heapTree_unfold, if_pos h]

/-- Raising the occupancy bound from `n` to `n+1` only changes the subtree
that position `n+1` belongs to. -/
theorem heapTree_bound_succ {α : Type} (vals : Nat → α) (n : Nat) :
    ∀ k q d, n + 2 - q ≤ k → inSub q (n + 1) = false →
      heapTree vals q (n + 1) d = heapTree vals q n d := by
  intro k
  induction k with
  | zero =>
      intro q d hk h
      rw [heapTree_eq_nil vals (by omega), heapTree_eq_nil vals (by omega)]
  | succ k ih =>
      intro q d hk h
      by_cases h1 : 1 ≤ q ∧ q ≤ n + 1
      · have hqn : q ≠ n + 1 := by
          intro he
          rw [he, inSub_self] at h
          exact absurd h (by simp)
        have hr : inSub (2 * q) (n + 1) = false := by
          cases hx : inSub (2 * q) (n + 1)
          · rfl
          · exact absurd (inSub_up h1.1 (Or.inl rfl) _ hx) (by simp [h])
        have hl : inSub (2 * q + 1) (n + 1) = false := by
          cases hx : inSub (2 * q + 1) (n + 1)
          · rfl
          · exact absurd (inSub_up h1.1 (Or.inr rfl) _ hx) (by simp [h])
        rw [heapTree_eq_node vals d h1,
          heapTree_eq_node vals d (show 1 ≤ q ∧ q ≤ n by omega),
          ih (2 * q) (d + 1) (by omega) hr, ih (2 * q + 1) (d + 1) (by omega) hl]
      · rw [heapTree_eq_nil vals h1, heapTree_eq_nil vals (by omega)]

theorem dirOfPos_one : dirOfPos 1 = .root := by
  rw [dirOfPos]
  simp

theorem dirOfPos_two_mul (p : Nat) (h : 1 ≤ p) : dirOfPos (2 * p) = .right := by
  rw [dirOfPos, if_neg (by omega)]
  have h2 : 2 * p % 2 = 0 := by omega
  simp [h2]

theorem dirOfPos_two_mul_add_one (p : Nat) (h : 1 ≤ p) :
    dirOfPos (2 * p + 1) = .left := by
  rw [dirOfPos, if_neg (by omega)]
  have h2 : (2 * p + 1) % 2 = 1 := by omega
  simp [h2]

theorem inSub_right_sibling (p : Nat) (h : 1 ≤ p) :
    inSub (2 * p) (2 * p + 1) = false := by
  rw [inSub, if_neg (by omega), if_neg (by omega)]
  have h2 : (2 * p + 1) / 2 = p := by omega
  rw [h2]
  exact inSub_of_lt (by omega)

/-- Filling the pending slot of position `n+1` (reached by its access path)
in the tree whose first `n` positions are occupied yields the tree whose
first `n+1` positions are occupied. -/
theorem setSlot_heapTree {α : Type} (vals : Nat → α) (n : Nat) :
    ∀ (path : List Step) (p d : Nat), 1 ≤ p → posAt p path = n + 1 →
      (path = [] → p = 1 ∧ d = 0) →
      setSlot (heapTree vals p n d) path (freshLeaf (vals (n + 1))) =
        heapTree vals p (n + 1) d := by
  intro path
  induction path with
  | nil =>
      intro p d hp hpos hroot
      obtain ⟨rfl, rfl⟩ := hroot rfl
      have hn : n = 0 := by simpa [posAt] using hpos
      subst hn
      simp only [setSlot]
      show freshLeaf (vals 1) = heapTree vals 1 1 0
      rw [heapTree_eq_node vals 0 (by omega), heapTree_eq_nil vals (by omega),
        heapTree_eq_nil vals (by omega), freshLeaf, dirOfPos_one]
  | cons s rest ih =>
      intro p d hp hpos hroot
      cases rest with
      | nil =>
          cases s
          · have h2p : 2 * p = n + 1 := by simpa [posAt] using hpos
            have hpn : 1 ≤ p ∧ p ≤ n := by omega
            rw [heapTree_eq_node vals d hpn,
              heapTree_eq_node vals d (show 1 ≤ p ∧ p ≤ n + 1 by omega)]
            show BTree.node (vals p) d (dirOfPos p)
                (withMeta (freshLeaf (vals (n + 1))) (d + 1) .right)
                (heapTree vals (2 * p + 1) n (d + 1)) = _
            rw [heapTree_eq_node vals (d + 1) (show 1 ≤ 2 * p ∧ 2 * p ≤ n + 1 by omega),
              heapTree_eq_nil vals (show ¬ (1 ≤ 2 * (2 * p) ∧ 2 * (2 * p) ≤ n + 1) by omega),
              heapTree_eq_nil vals
                (show ¬ (1 ≤ 2 * (2 * p) + 1 ∧ 2 * (2 * p) + 1 ≤ n + 1) by omega),
              dirOfPos_two_mul p hp,
              heapTree_bound_succ vals n (n + 2) (2 * p + 1) (d + 1) (by omega)
                (h2p ▸ inSub_of_lt (by omega)),
              freshLeaf, withMeta, h2p]
          · have h2p : 2 * p + 1 = n + 1 := by simpa [posAt] using hpos
            have hpn : 1 ≤ p ∧ p ≤ n := by omega
            rw [heapTree_eq_node vals d hpn,
              heapTree_eq_node vals d (show 1 ≤ p ∧ p ≤ n + 1 by omega)]
            show BTree.node (vals p) d (dirOfPos p)
                (heapTree vals (2 * p) n (d + 1))
                (withMeta (freshLeaf (vals (n + 1))) (d + 1) .left) = _
            rw [heapTree_eq_node vals (d + 1)
                (show 1 ≤ 2 * p + 1 ∧ 2 * p + 1 ≤ n + 1 by omega),
              heapTree_eq_nil vals
                (show ¬ (1 ≤ 2 * (2 * p + 1) ∧ 2 * (2 * p + 1) ≤ n + 1) by omega),
              heapTree_eq_nil vals
                (show ¬ (1 ≤ 2 * (2 * p + 1) + 1 ∧ 2 * (2 * p + 1) + 1 ≤ n + 1) by omega),
              dirOfPos_two_mul_add_one p hp,
              heapTree_bound_succ vals n (n + 2) (2 * p) (d + 1) (by omega)
                (h2p ▸ inSub_right_sibling p hp),
              freshLeaf, withMeta, h2p]
      | cons s2 rest2 =>
          cases s
          · have hpos2 : posAt (2 * p) (s2 :: rest2) = n + 1 := hpos
            have h4 : 2 * (2 * p) ≤ n + 1 := by
              rw [← hpos2]
              exact two_mul_le_posAt (2 * p) s2 rest2
            have hpn : 1 ≤ p ∧ p ≤ n := by omega
            rw [heapTree_eq_node vals d hpn,
              heapTree_eq_node vals d (show 1 ≤ p ∧ p ≤ n + 1 by omega)]
            show BTree.node (vals p) d (dirOfPos p)
                (setSlot (heapTree vals (2 * p) n (d + 1)) (s2 :: rest2)
                  (freshLeaf (vals (n + 1))))
                (heapTree vals (2 * p + 1) n (d + 1)) = _
            have hdisj : inSub (2 * p + 1) (n + 1) = false := by
              refine sib_disj_right hp (n + 1) ?_
              rw [← hpos2]
              exact posAt_inSub (s2 :: rest2) (2 * p) (by omega)
            rw [ih (2 * p) (d + 1) (by omega) hpos2 (by simp),
              heapTree_bound_succ vals n (n + 2) (2 * p + 1) (d + 1) (by omega) hdisj]
          · have hpos2 : posAt (2 * p + 1) (s2 :: rest2) = n + 1 := hpos
            have h4 : 2 * (2 * p + 1) ≤ n + 1 := by
              rw [← hpos2]
              exact two_mul_le_posAt (2 * p + 1) s2 rest2
            have hpn : 1 ≤ p ∧ p ≤ n := by omega
            rw [heapTree_eq_node vals d hpn,
              heapTree_eq_node vals d (show 1 ≤ p ∧ p ≤ n + 1 by omega)]
            show BTree.node (vals p) d (dirOfPos p)
                (heapTree vals (2 * p) n (d + 1))
                (setSlot (heapTree vals (2 * p + 1) n (d + 1)) (s2 :: rest2)
                  (freshLeaf (vals (n + 1)))) = _
            have hdisj : inSub (2 * p) (n + 1) = false := by
              refine sib_disj_left hp (n + 1) ?_
              rw [← hpos2]
              exact posAt_inSub (s2 :: rest2) (2 * p + 1) (by omega)
            rw [ih (2 * p + 1) (d + 1) (by omega) hpos2 (by simp),
              heapTree_bound_succ vals n (n + 2) (2 * p) (d + 1) (by omega) hdisj]

theorem fillLoop_nil_queue {α : Type} (vs : List α) (t : BTree α) :
    fillLoop vs [] t = t := by
  cases vs <;> rfl

theorem heapTree_one_eq_freshLeaf {α : Type} (vals : Nat → α) :
    heapTree vals 1 1 0 = freshLeaf (vals 1) := by
  rw [heapTree_eq_node vals 0 (by omega), heapTree_eq_nil vals (by omega),
    heapTree_eq_nil vals (by omega), freshLeaf, dirOfPos_one]

/-- Invariant run of the slot-filling loop: starting with `k` slots filled
(tree of positions `1 … k`, queue holding positions `k+1 … 2k+1`), consuming
the values for positions `k+1, k+2, …` fills exactly those positions. -/
theorem fillLoop_heapTree {α : Type} :
    ∀ (vs : List α) (k : Nat) (vals : Nat → α),
      (∀ j (h : j < vs.length), vs.get ⟨j, h⟩ = vals (k + 1 + j)) →
      fillLoop vs ((List.range' (k + 1) (k + 1)).map pathOfPos) (heapTree vals 1 k 0) =
        heapTree vals 1 (k + vs.length) 0 := by
  intro vs
  induction vs with
  | nil =>
      intro k vals hv
      rw [List.range'_succ, List.map_cons]
      simp [fillLoop]
  | cons v vs ih =>
      intro k vals hv
      rw [List.range'_succ, List.map_cons, fillLoop]
      have hv0 : v = vals (k + 1) := by
        have h0 := hv 0 (by simp)
        simpa using h0
      rw [hv0, setSlot_heapTree vals k (pathOfPos (k + 1)) 1 0 (by omega)
        (posAt_pathOfPos (k + 1) (by omega)) (fun _ => ⟨rfl, rfl⟩)]
      have hq2 : (List.range' (k + 1 + 1) k).map pathOfPos ++
          [pathOfPos (k + 1) ++ [Step.R], pathOfPos (k + 1) ++ [Step.L]] =
          (List.range' (k + 2) (k + 2)).map pathOfPos := by
        have t1 : List.range' (k + 2) (k + 2) =
            List.range' (k + 2) (k + 1) ++ [2 * (k + 1) + 1] := by
          have := List.range'_1_concat (k + 2) (k + 1)
          rw [this]
          congr 1
          simp
          omega
        have t2 : List.range' (k + 2) (k + 1) =
            List.range' (k + 2) k ++ [2 * (k + 1)] := by
          have := List.range'_1_concat (k + 2) k
          rw [this]
          congr 1
          simp
          omega
        rw [t1, t2, List.map_append, List.map_append, List.append_assoc,
          List.map_singleton, List.map_singleton,
          pathOfPos_two_mul (k + 1) (by omega),
          pathOfPos_two_mul_add_one (k + 1) (by omega)]
        rfl
      rw [show k + 1 + 1 = k + 2 from rfl] at hq2
      rw [show (List.range' (k + 1 + 1) k) = (List.range' (k + 2) k) from rfl, hq2]
      have hrec := ih (k + 1) vals (by
        intro j hj
        have := hv (j + 1) (by simpa using Nat.succ_lt_succ hj)
        simpa [Nat.add_assoc, Nat.add_comm, Nat.add_left_comm] using this)
      rw [hrec]
      congr 1
      simp
      omega

/-- Filling the initial single-request queue (the root request) from an
arbitrary initial output value `t0`. -/
theorem fillLoop_root {α : Type} (v : α) (vs : List α) (vals : Nat → α)
    (t0 : BTree α)
    (hv : ∀ j (h : j < (v :: vs).length), (v :: vs).get ⟨j, h⟩ = vals (1 + j)) :
    fillLoop (v :: vs) [[]] t0 = heapTree vals 1 (v :: vs).length 0 := by
  rw [fillLoop]
  have h0 : v = vals 1 := by
    have := hv 0 (by simp)
    simpa using this
  have hfresh : setSlot t0 [] (freshLeaf v) = heapTree vals 1 1 0 := by
    rw [heapTree_one_eq_freshLeaf, h0]
    simp only [setSlot]
  have p2 : pathOfPos 2 = [Step.R] := by
    have h2 := pathOfPos_two_mul 1 (by omega)
    simpa [pathOfPos_one] using h2
  have p3 : pathOfPos 3 = [Step.L] := by
    have h3 := pathOfPos_two_mul_add_one 1 (by omega)
    simpa [pathOfPos_one] using h3
  have hq : ([] : List (List Step)) ++ [[] ++ [Step.R], [] ++ [Step.L]] =
      (List.range' (1 + 1) (1 + 1)).map pathOfPos := by
    norm_num [List.range'_succ, p2, p3]
  rw [hfresh, hq]
  have hrec := fillLoop_heapTree vs 1 vals (by
    intro j hj
    have := hv (j + 1) (by simpa using Nat.succ_lt_succ hj)
    simpa [Nat.add_assoc, Nat.add_comm, Nat.add_left_comm] using this)
  rw [hrec]
  congr 1
  simp
  omega

/-- One step of the pending-slot queue: popping the front (position `k+1`)
and pushing its right and left slots extends the consecutive position range. -/
theorem pathQueue_step (k : Nat) :
    (List.range' (k + 2) k).map pathOfPos ++
      [pathOfPos (k + 1) ++ [Step.R], pathOfPos (k + 1) ++ [Step.L]] =
      (List.range' (k + 2) (k + 2)).map pathOfPos := by
  have t1 : List.range' (k + 2) (k + 2) =
      List.range' (k + 2) (k + 1) ++ [2 * (k + 1) + 1] := by
    have h1 := List.range'_1_concat (k + 2) (k + 1)
    rw [h1]
    congr 1
    simp
    omega
  have t2 : List.range' (k + 2) (k + 1) =
      List.range' (k + 2) k ++ [2 * (k + 1)] := by
    have h2 := List.range'_1_concat (k + 2) k
    rw [h2]
    congr 1
    simp
    omega
  rw [t1, t2, List.map_append, List.map_append, List.append_assoc,
    List.map_singleton, List.map_singleton,
    pathOfPos_two_mul (k + 1) (by omega),
    pathOfPos_two_mul_add_one (k + 1) (by omega)]
  rfl

theorem deserLoop_eq_fillLoop {α : Type} (fromText : String → α) :
    ∀ (lines : List String) (q : List (List Step)) (t : BTree α),
      deserLoop fromText lines q t = fillLoop (parsedValues fromText lines) q t := by
  intro lines
  induction lines with
  | nil =>
      intro q t
      cases q <;> simp [deserLoop, parsedValues, fillLoop]
  | cons line rest ih =>
      intro q t
      cases q with
      | nil =>
          rw [fillLoop_nil_queue]
          rfl
      | cons p ps =>
          by_cases hb : line.length ≤ 0
          · rw [deserLoop, if_pos hb]
            rw [ih (p :: ps) t]
            have hb0 : line.length = 0 := by omega
            have : parsedValues fromText (line :: rest) = parsedValues fromText rest := by
              simp [parsedValues, List.filterMap_cons, hb0]
            rw [this]
          · rw [deserLoop, if_neg hb]
            rw [ih _ _]
            have hb0 : ¬ line.length = 0 := by omega
            have : parsedValues fromText (line :: rest) =
                fromText line :: parsedValues fromText rest := by
              simp [parsedValues, List.filterMap_cons, hb0]
            rw [this, fillLoop]

/-- Characterization of the deserializer: consuming `m ≥ 1` parsed values
produces exactly the tree occupying heap positions `1 … m` with those values
in breadth-first (right-before-left) order. -/
theorem Deserialize_eq_heapTree {α : Type} (fromText : String → α)
    (lines : List String) (t0 : BTree α) (v : α) (vs : List α)
    (hp : parsedValues fromText lines = v :: vs) :
    Deserialize fromText lines t0 =
      heapTree (listVals (v :: vs) v) 1 (vs.length + 1) 0 := by
  rw [Deserialize, deserLoop_eq_fillLoop, hp]
  have hv : ∀ j (h : j < (v :: vs).length),
      (v :: vs).get ⟨j, h⟩ = listVals (v :: vs) v (1 + j) := by
    intro j h
    rw [listVals]
    have e1 : 1 + j - 1 = j := by omega
    rw [e1, List.getD_eq_getElem?_getD, List.getElem?_eq_getElem h]
    simp [List.get_eq_getElem]
  rw [fillLoop_root v vs (listVals (v :: vs) v) t0 hv]
  simp

theorem genLoop_heapTree (vals : Nat → Nat) (maxLeaves : Int) :
    ∀ (fuel k : Nat), k < genCount maxLeaves → genCount maxLeaves - k ≤ fuel →
      genLoop vals maxLeaves ((List.range' (k + 1) (k + 1)).map pathOfPos)
        (heapTree (genVals vals) 1 k 0) (k : Int) k =
      (heapTree (genVals vals) 1 (genCount maxLeaves) 0, genCount maxLeaves) := by
  intro fuel
  induction fuel with
  | zero => intro k h1 h2; omega
  | succ fuel ih =>
      intro k h1 h2
      rw [List.range'_succ, List.map_cons, genLoop]
      have hval : ((vals k % 255 : Nat) : Int) = genVals vals (k + 1) := by
        simp [genVals]
      rw [hval, setSlot_heapTree (genVals vals) k (pathOfPos (k + 1)) 1 0 (by omega)
        (posAt_pathOfPos (k + 1) (by omega)) (fun _ => ⟨rfl, rfl⟩)]
      by_cases hbreak : maxLeaves ≤ (k : Int) + 1
      · rw [if_pos hbreak]
        have hk1 : k + 1 = genCount maxLeaves := by
          unfold genCount at h1 ⊢
          by_cases hml : maxLeaves ≤ 1
          · rw [if_pos hml] at h1 ⊢
            omega
          · rw [if_neg hml] at h1 ⊢
            omega
        rw [hk1]
      · rw [if_neg hbreak]
        have hcnt : ((k : Int) + 1) = ((k + 1 : Nat) : Int) := by push_cast; ring
        have hk1 : k + 1 < genCount maxLeaves := by
          unfold genCount at h1 ⊢
          by_cases hml : maxLeaves ≤ 1
          · omega
          · rw [if_neg hml] at h1 ⊢
            omega
        rw [show k + 1 + 1 = k + 2 from rfl, pathQueue_step k, hcnt]
        exact ih (k + 1) hk1 (by omega)

theorem genCount_pos (maxLeaves : Int) : 1 ≤ genCount maxLeaves := by
  unfold genCount
  by_cases hml : maxLeaves ≤ 1
  · rw [if_pos hml]
  · rw [if_neg hml]
    omega

/-- Characterization of the generator: the produced tree occupies exactly heap
positions `1 … genCount maxLeaves`, with the drawn values in creation order,
and one `rand()` call was made per created node. -/
theorem GenerateTree_eq_heapTree (maxLeaves : Int) (vals : Nat → Nat) :
    GenerateTree maxLeaves vals = heapTree (genVals vals) 1 (genCount maxLeaves) 0 ∧
    GenerateTreeQueries maxLeaves vals = genCount maxLeaves := by
  have hq : ((List.range' (0 + 1) (0 + 1)).map pathOfPos) = [[]] := by
    rw [List.range'_succ]
    simp [pathOfPos_one, List.range']
  have h0 := genLoop_heapTree vals maxLeaves (genCount maxLeaves) 0
    (by have := genCount_pos maxLeaves; omega) (by omega)
  rw [hq, heapTree_eq_nil (genVals vals) (by omega)] at h0
  constructor
  · rw [GenerateTree]
    rw [show ((0 : Nat) : Int) = (0 : Int) from rfl] at h0
    rw [h0]
  · rw [GenerateTreeQueries]
    rw [show ((0 : Nat) : Int) = (0 : Int) from rfl] at h0
    rw [h0]

theorem sideList_heapTree_node {α : Type} (vals : Nat → α) {q n : Nat} (d : Nat)
    (h : 1 ≤ q ∧ q ≤ n) :
    sideList (heapTree vals q n d) = [heapTree vals q n d] := by
  rw [heapTree_eq_node vals d h]
  rfl

theorem sideList_heapTree_nil {α : Type} (vals : Nat → α) {q n : Nat} (d : Nat)
    (h : ¬ (1 ≤ q ∧ q ≤ n)) :
    sideList (heapTree vals q n d) = [] := by
  rw [heapTree_eq_nil vals h]
  rfl

theorem sideList_heapAt_node {α : Type} (vals : Nat → α) {q n : Nat}
    (h : 1 ≤ q ∧ q ≤ n) :
    sideList (heapAt vals n q) = [heapAt vals n q] := by
  rw [heapAt]
  exact sideList_heapTree_node vals _ h

theorem sideList_heapAt_nil {α : Type} (vals : Nat → α) {q n : Nat}
    (h : ¬ (1 ≤ q ∧ q ≤ n)) :
    sideList (heapAt vals n q) = [] := by
  rw [heapAt]
  exact sideList_heapTree_nil vals _ h

theorem enq_heapAt {α : Type} (vals : Nat → α) (n a : Nat) (ha : 1 ≤ a)
    (han : a ≤ n) :
    enq (heapAt vals n a) =
      (List.range' (2 * a) (min (2 * a + 1) n + 1 - 2 * a)).map (heapAt vals n) := by
  rw [heapAt, heapTree_eq_node vals (posDepth a) ⟨ha, han⟩]
  have hR : heapTree vals (2 * a) n (posDepth a + 1) = heapAt vals n (2 * a) := by
    rw [heapAt, posDepth_two_mul a ha]
  have hL : heapTree vals (2 * a + 1) n (posDepth a + 1) = heapAt vals n (2 * a + 1) := by
    rw [heapAt, posDepth_two_mul_add_one a ha]
  show sideList (heapTree vals (2 * a) n (posDepth a + 1)) ++
      sideList (heapTree vals (2 * a + 1) n (posDepth a + 1)) = _
  rw [hR, hL]
  by_cases h2 : 2 * a + 1 ≤ n
  · rw [sideList_heapAt_node vals ⟨by omega, by omega⟩,
      sideList_heapAt_node vals ⟨by omega, h2⟩]
    rw [show min (2 * a + 1) n + 1 - 2 * a = 1 + 1 by omega,
      List.range'_succ, List.range'_succ, List.range'_zero]
    rfl
  · by_cases h1 : 2 * a ≤ n
    · rw [sideList_heapAt_node vals ⟨by omega, h1⟩,
        sideList_heapAt_nil vals (by omega)]
      rw [show min (2 * a + 1) n + 1 - 2 * a = 0 + 1 by omega,
        List.range'_succ, List.range'_zero]
      rfl
    · rw [sideList_heapAt_nil vals (by omega), sideList_heapAt_nil vals (by omega)]
      rw [show min (2 * a + 1) n + 1 - 2 * a = 0 by omega, List.range'_zero]
      rfl

/-- The breadth-first walk of a heap-prefix tree dequeues positions in
increasing order: the frontier is always a consecutive block of positions. -/
theorem walkQueue_heapAt {α : Type} (vals : Nat → α) (n : Nat) :
    ∀ (fuel a : Nat), 1 ≤ a → n + 1 - a ≤ fuel →
      walkQueue ((List.range' a (min (2 * a - 1) n + 1 - a)).map (heapAt vals n)) =
        (List.range' a (n + 1 - a)).map (heapAt vals n) := by
  intro fuel
  induction fuel with
  | zero =>
      intro a ha hf
      have hminle : min (2 * a - 1) n ≤ n := Nat.min_le_right _ _
      have hc1 : min (2 * a - 1) n + 1 - a = 0 := by omega
      have hc2 : n + 1 - a = 0 := by omega
      rw [hc1, hc2, List.range'_zero, List.map_nil]
      simp [walkQueue]
  | succ fuel ih =>
      intro a ha hf
      by_cases han : a ≤ n
      · have hM3 : min (2 * a - 1) n = 2 * a - 1 ∨ min (2 * a - 1) n = n := by
          rcases Nat.le_total (2 * a - 1) n with h | h
          · exact Or.inl (Nat.min_eq_left h)
          · exact Or.inr (Nat.min_eq_right h)
        have hN3 : min (2 * a + 1) n = 2 * a + 1 ∨ min (2 * a + 1) n = n := by
          rcases Nat.le_total (2 * a + 1) n with h | h
          · exact Or.inl (Nat.min_eq_left h)
          · exact Or.inr (Nat.min_eq_right h)
        have hP3 : min (2 * (a + 1) - 1) n = 2 * (a + 1) - 1 ∨
            min (2 * (a + 1) - 1) n = n := by
          rcases Nat.le_total (2 * (a + 1) - 1) n with h | h
          · exact Or.inl (Nat.min_eq_left h)
          · exact Or.inr (Nat.min_eq_right h)
        have hc1 : min (2 * a - 1) n + 1 - a = (min (2 * a - 1) n - a) + 1 := by omega
        rw [hc1, List.range'_succ, List.map_cons]
        rw [show heapAt vals n a = heapTree vals a n (posDepth a) from rfl,
          heapTree_eq_node vals (posDepth a) ⟨ha, han⟩]
        rw [walkQueue]
        rw [← heapTree_eq_node vals (posDepth a) ⟨ha, han⟩]
        rw [show heapTree vals a n (posDepth a) = heapAt vals n a from rfl]
        rw [enq_heapAt vals n a ha han, ← List.map_append]
        have hq : List.range' (a + 1) (min (2 * a - 1) n - a) ++
            List.range' (2 * a) (min (2 * a + 1) n + 1 - 2 * a) =
            List.range' (a + 1) (min (2 * a + 1) n + 1 - (a + 1)) := by
          by_cases hn : 2 * a - 1 ≤ n
          · have hMeq : min (2 * a - 1) n = 2 * a - 1 := Nat.min_eq_left hn
            have happ := List.range'_append_1 (a + 1) (min (2 * a - 1) n - a)
              (min (2 * a + 1) n + 1 - 2 * a)
            rw [show a + 1 + (min (2 * a - 1) n - a) = 2 * a by rw [hMeq]; omega] at happ
            rw [happ]
            congr 1
            rcases hN3 with hN | hN <;> rw [hMeq, hN] <;> omega
          · have hMeq : min (2 * a - 1) n = n := Nat.min_eq_right (by omega)
            have hNeq : min (2 * a + 1) n = n := Nat.min_eq_right (by omega)
            rw [show min (2 * a + 1) n + 1 - 2 * a = 0 by rw [hNeq]; omega,
              List.range'_zero, List.append_nil]
            congr 1
            rw [hMeq, hNeq]
            omega
        rw [hq]
        rw [show min (2 * a + 1) n + 1 - (a + 1) =
          min (2 * (a + 1) - 1) n + 1 - (a + 1) by rw [show 2 * (a + 1) - 1 = 2 * a + 1 by omega]]
        rw [ih (a + 1) (by omega) (by omega)]
        rw [show n + 1 - a = (n - a) + 1 by omega, List.range'_succ, List.map_cons]
        rw [show n + 1 - (a + 1) = n - a by omega]
      · have hminle : min (2 * a - 1) n ≤ n := Nat.min_le_right _ _
        have hc1 : min (2 * a - 1) n + 1 - a = 0 := by omega
        have hc2 : n + 1 - a = 0 := by omega
        rw [hc1, hc2, List.range'_zero, List.map_nil]
        simp [walkQueue]

/-- The breadth-first walk of the whole heap-prefix tree visits the positions
`1 … n` in order. -/
theorem walkQueue_heapTree_root {α : Type} (vals : Nat → α) (n : Nat) :
    walkQueue [heapTree vals 1 n 0] = (List.range' 1 n).map (heapAt vals n) := by
  cases n with
  | zero =>
      rw [heapTree_eq_nil vals (by omega), List.range'_zero, List.map_nil]
      simp [walkQueue]
  | succ m =>
      have h := walkQueue_heapAt vals (m + 1) (m + 1) 1 (by omega) (by omega)
      have hc1 : min (2 * 1 - 1) (m + 1) + 1 - 1 = 0 + 1 := by
        have : min (2 * 1 - 1) (m + 1) = 1 := by
          rcases Nat.le_total (2 * 1 - 1) (m + 1) with hh | hh
          · rw [Nat.min_eq_left hh]
          · omega
        omega
      rw [hc1, List.range'_succ, List.range'_zero, List.map_cons, List.map_nil] at h
      rw [show heapAt vals (m + 1) 1 = heapTree vals 1 (m + 1) 0 by
        rw [heapAt, posDepth_one]] at h
      rw [h]
      norm_num

theorem serLoop_eq_emitLines {α : Type} (toText : α → String) (skipDeep : Nat)
    (pretty : Bool) :
    ∀ q : List (BTree α),
      serLoop toText skipDeep pretty q =
        emitLines toText skipDeep pretty (walkQueue q) := by
  intro q
  induction q using walkQueue.induct with
  | case1 => rw [serLoop, walkQueue]; rfl
  | case2 ts ih => rw [serLoop, walkQueue]; exact ih
  | case3 v d dir r l ts ih =>
      rw [serLoop, walkQueue, emitLines]
      simp only [depthOf]
      congr 1
      by_cases hd : skipDeep < d
      · rw [if_pos ⟨by omega, hd⟩, if_pos hd]
      · rw [if_neg (fun hc => hd hc.2), if_neg hd]
        exact ih

/-- Structure of the emitted lines: the values of the visited leaves up to the
first one deeper than the limit, that leaf's value, then the marker; nothing
after the marker. -/
theorem emitLines_eq_takeWhile {α : Type} (toText : α → String) (skipDeep : Nat)
    (pretty : Bool) :
    ∀ w : List (BTree α),
      emitLines toText skipDeep pretty w =
        (w.takeWhile (fun x => decide (depthOf x ≤ skipDeep))).map
            (lineFor toText pretty) ++
          ((w.dropWhile (fun x => decide (depthOf x ≤ skipDeep))).head?.elim []
            (fun x => [lineFor toText pretty x, "..."])) := by
  intro w
  induction w with
  | nil => rfl
  | cons x xs ih =>
      rw [emitLines, List.takeWhile_cons, List.dropWhile_cons]
      by_cases hd : skipDeep < depthOf x
      · have hp : decide (depthOf x ≤ skipDeep) = false := by
          simp only [decide_eq_false_iff_not]
          omega
        rw [if_pos hd, hp]
        rfl
      · have hp : decide (depthOf x ≤ skipDeep) = true := by
          simp only [decide_eq_true_eq]
          omega
        rw [if_neg hd, hp]
        simp only [if_pos, List.map_cons, List.cons_append]
        rw [ih]

/-- When no visited leaf exceeds the limit, every leaf's line is emitted and
no marker is written. -/
theorem emitLines_all {α : Type} (toText : α → String) (skipDeep : Nat)
    (pretty : Bool) :
    ∀ w : List (BTree α), (∀ x ∈ w, depthOf x ≤ skipDeep) →
      emitLines toText skipDeep pretty w = w.map (lineFor toText pretty) := by
  intro w
  induction w with
  | nil => intro h; rfl
  | cons x xs ih =>
      intro h
      rw [emitLines, if_neg (by have := h x (by simp); omega), List.map_cons,
        ih (fun y hy => h y (by simp [hy]))]

theorem depthsLe_mem {α : Type} {m : Nat} {t x : BTree α}
    (ht : depthsLe m t = true) (hx : x ∈ subtreesList t) : depthOf x ≤ m := by
  induction t with
  | nil => simp [subtreesList] at hx
  | node v d dir r l ihr ihl =>
      rw [depthsLe] at ht
      simp only [Bool.and_eq_true, decide_eq_true_eq] at ht
      simp only [subtreesList, List.mem_cons, List.mem_append] at hx
      rcases hx with rfl | hx | hx
      · simpa [depthOf] using ht.1.1
      · exact ihr ht.1.2 hx
      · exact ihl ht.2 hx

theorem string_ne_empty_length {s : String} (h : s ≠ "") : ¬ s.length ≤ 0 := by
  intro hc
  apply h
  cases s with
  | mk data =>
      cases data with
      | nil => rfl
      | cons c cs => simp [String.length] at hc

/-- Plain untruncated serialization of a heap-prefix tree emits exactly the
values of positions `1 … n`, in order, one line each, with no marker. -/
theorem Serialize_heapTree {α : Type} (toText : α → String) (vals : Nat → α)
    (n : Nat) (hd : depthsLe 65535 (heapTree vals 1 n 0) = true) :
    Serialize toText (heapTree vals 1 n 0) 65535 false =
      (List.range' 1 n).map (fun p => toText (vals p)) := by
  rw [Serialize, serLoop_eq_emitLines, walkQueue_heapTree_root]
  rw [emitLines_all toText 65535 false _ (by
    intro x hx
    have hmem : x ∈ walkQueue [heapTree vals 1 n 0] := by
      rw [walkQueue_heapTree_root]
      exact hx
    rw [mem_walkQueue_iff] at hmem
    simp only [List.flatMap_cons, List.flatMap_nil, List.append_nil] at hmem
    exact depthsLe_mem hd hmem)]
  rw [List.map_map]
  refine List.map_congr_left ?_
  intro p hp
  rw [List.mem_range'_1] at hp
  have hp2 : 1 ≤ p ∧ p ≤ n := by omega
  simp only [Function.comp]
  rw [heapAt, heapTree_eq_node vals _ hp2, lineFor]
  simp

theorem heapTree_congr {α : Type} (vals vals2 : Nat → α) (n : Nat)
    (h : ∀ i, 1 ≤ i → i ≤ n → vals i = vals2 i) :
    ∀ (fuel p d : Nat), n + 1 - p ≤ fuel →
      heapTree vals p n d = heapTree vals2 p n d := by
  intro fuel
  induction fuel with
  | zero =>
      intro p d hf
      rw [heapTree_eq_nil vals (by omega), heapTree_eq_nil vals2 (by omega)]
  | succ fuel ih =>
      intro p d hf
      by_cases h1 : 1 ≤ p ∧ p ≤ n
      · rw [heapTree_eq_node vals d h1, heapTree_eq_node vals2 d h1,
          h p h1.1 h1.2, ih (2 * p) (d + 1) (by omega), ih (2 * p + 1) (d + 1) (by omega)]
      · rw [heapTree_eq_nil vals h1, heapTree_eq_nil vals2 h1]

/-- Round trip for heap-prefix trees: plain untruncated serialization followed
by deserialization with the inverse parser reconstructs the tree exactly
(hence with identical shape, breadth-first values, depths and directions). -/
theorem roundTrip_heapTree {α : Type} (vals : Nat → α) (n : Nat)
    (toText : α → String) (fromText : String → α) (t0 : BTree α)
    (hn : 1 ≤ n)
    (hinv : ∀ a : α, fromText (toText a) = a)
    (hne : ∀ a : α, toText a ≠ "")
    (hd : depthsLe 65535 (heapTree vals 1 n 0) = true) :
    Deserialize fromText (Serialize toText (heapTree vals 1 n 0) 65535 false) t0 =
      heapTree vals 1 n 0 := by
  rw [Serialize_heapTree toText vals n hd]
  have hparsed : parsedValues fromText ((List.range' 1 n).map (fun p => toText (vals p))) =
      (List.range' 1 n).map vals := by
    rw [parsedValues, List.filterMap_map]
    have hfg : ∀ p ∈ List.range' 1 n,
        ((fun line => if line.length ≤ 0 then none else some (fromText line)) ∘
          (fun p => toText (vals p))) p = (some ∘ vals) p := by
      intro p hp
      simp only [Function.comp]
      rw [if_neg (string_ne_empty_length (hne (vals p))), hinv]
    rw [List.filterMap_congr hfg, List.filterMap_eq_map]
  have hrange : List.range' 1 n = 1 :: List.range' 2 (n - 1) := by
    rw [show n = (n - 1) + 1 by omega, List.range'_succ]
    congr 1
  have hcons : (List.range' 1 n).map vals = vals 1 :: (List.range' 2 (n - 1)).map vals := by
    rw [hrange, List.map_cons]
  rw [Deserialize_eq_heapTree fromText _ t0 (vals 1) ((List.range' 2 (n - 1)).map vals)
    (by rw [hparsed, hcons])]
  have hlen : ((List.range' 2 (n - 1)).map vals).length + 1 = n := by
    simp
    omega
  rw [hlen]
  have hcongr : ∀ i, 1 ≤ i → i ≤ n →
      vals i = listVals (vals 1 :: (List.range' 2 (n - 1)).map vals) (vals 1) i := by
    intro i h1 h2
    rw [listVals, ← hcons]
    have hlen2 : i - 1 < ((List.range' 1 n).map vals).length := by
      simp
      omega
    rw [List.getD_eq_getElem?_getD, List.getElem?_eq_getElem hlen2, Option.getD_some,
      List.getElem_map, List.getElem_range'_1]
    congr 1
    omega
  exact (heapTree_congr vals _ n hcongr (n + 1) 1 0 (by omega)).symm

theorem subtreesList_map_ownWeight_sum (t : BTree Int) :
    ((subtreesList t).map ownWeight).sum = nodeWeight t := by
  induction t with
  | nil => simp [subtreesList, nodeWeight]
  | node v d dir r l ihr ihl =>
      simp only [subtreesList, List.map_cons, List.map_append, List.sum_cons,
        List.sum_append, ihr, ihl, ownWeight, nodeWeight]
      ring

theorem walk_false_map_ownWeight_sum (v : Int) (d : Nat) (dir : TreeDir)
    (r l : BTree Int) :
    ((walk (.node v d dir r l) false).map ownWeight).sum = nodeWeight r + nodeWeight l := by
  rw [walk, if_neg (by simp), seedNoSelf]
  rw [((walkQueue_perm _).map ownWeight).sum_eq]
  rw [List.flatMap_append, sideList_flatMap_subtrees, sideList_flatMap_subtrees,
    List.map_append, List.sum_append,
    subtreesList_map_ownWeight_sum, subtreesList_map_ownWeight_sum]
  ring

theorem walk_false_length (v : Int) (d : Nat) (dir : TreeDir) (r l : BTree Int) :
    (walk (.node v d dir r l) false).length = treeSize r + treeSize l := by
  rw [walk, if_neg (by simp), seedNoSelf, walkQueue_length, sizeAll_append]
  have hs : ∀ t : BTree Int, sizeAll (sideList t) = treeSize t := by
    intro t
    cases t <;> simp [sideList, sizeAll, treeSize]
  rw [hs, hs]
  omega

theorem destructorDeletes_eq_flatMap {α : Type} (t : BTree α) :
    destructorDeletes t = (walk t false).flatMap delList := by
  rw [destructorDeletes, List.flatMap_def, List.flatMap_def, List.attach_map_coe]

theorem delList_eq {α : Type} (t : BTree α) :
    delList t = t :: destructorDeletes t := by
  rw [delList, destructorDeletes]

theorem isNil_heapTree_node {α : Type} (vals : Nat → α) {q n : Nat} (d : Nat)
    (h : 1 ≤ q ∧ q ≤ n) : isNil (heapTree vals q n d) = false := by
  rw [heapTree_eq_node vals d h]
  rfl

theorem isNil_heapTree_nil {α : Type} (vals : Nat → α) {q n : Nat} (d : Nat)
    (h : ¬ (1 ≤ q ∧ q ≤ n)) : isNil (heapTree vals q n d) = true := by
  rw [heapTree_eq_nil vals h]
  rfl

theorem leftImpliesRight_heapTree {α : Type} (vals : Nat → α) (n : Nat) :
    ∀ (fuel p d : Nat), n + 1 - p ≤ fuel → 1 ≤ p →
      leftImpliesRight (heapTree vals p n d) = true := by
  intro fuel
  induction fuel with
  | zero =>
      intro p d hf hp
      rw [heapTree_eq_nil vals (by omega)]
      rfl
  | succ fuel ih =>
      intro p d hf hp
      by_cases h1 : 1 ≤ p ∧ p ≤ n
      · rw [heapTree_eq_node vals d h1, leftImpliesRight]
        rw [ih (2 * p) (d + 1) (by omega) (by omega),
          ih (2 * p + 1) (d + 1) (by omega) (by omega)]
        by_cases hL : 2 * p + 1 ≤ n
        · rw [isNil_heapTree_node vals _ ⟨by omega, hL⟩,
            isNil_heapTree_node vals _ ⟨by omega, by omega⟩]
          rfl
        · rw [isNil_heapTree_nil vals _ (by omega)]
          rfl
      · rw [heapTree_eq_nil vals h1]
        rfl

theorem depthOkB_heapTree {α : Type} (vals : Nat → α) (n : Nat) :
    ∀ (fuel p d : Nat), n + 1 - p ≤ fuel →
      depthOkB d (heapTree vals p n d) = true := by
  intro fuel
  induction fuel with
  | zero =>
      intro p d hf
      rw [heapTree_eq_nil vals (by omega)]
      rfl
  | succ fuel ih =>
      intro p d hf
      by_cases h1 : 1 ≤ p ∧ p ≤ n
      · rw [heapTree_eq_node vals d h1, depthOkB,
          ih (2 * p) (d + 1) (by omega), ih (2 * p + 1) (d + 1) (by omega)]
        simp
      · rw [heapTree_eq_nil vals h1]
        rfl

theorem valuesInRange_heapTree (lo hi : Int) (vals : Nat → Int) (n : Nat)
    (hv : ∀ i, lo ≤ vals i ∧ vals i ≤ hi) :
    ∀ (fuel p d : Nat), n + 1 - p ≤ fuel →
      valuesInRange lo hi (heapTree vals p n d) = true := by
  intro fuel
  induction fuel with
  | zero =>
      intro p d hf
      rw [heapTree_eq_nil vals (by omega)]
      rfl
  | succ fuel ih =>
      intro p d hf
      by_cases h1 : 1 ≤ p ∧ p ≤ n
      · rw [heapTree_eq_node vals d h1, valuesInRange,
          ih (2 * p) (d + 1) (by omega), ih (2 * p + 1) (d + 1) (by omega)]
        simp [(hv p).1, (hv p).2]
      · rw [heapTree_eq_nil vals h1]
        rfl

theorem treeSize_heapTree_root {α : Type} (vals : Nat → α) (n : Nat) :
    treeSize (heapTree vals 1 n 0) = n := by
  have h1 := walkQueue_length [heapTree vals 1 n 0]
  rw [walkQueue_heapTree_root] at h1
  simp only [List.length_map, List.length_range'] at h1
  simp only [sizeAll, List.map_cons, List.map_nil, List.sum_cons, List.sum_nil] at h1
  omega

theorem heapTree_three {α : Type} (vals : Nat → α) :
    heapTree vals 1 3 0 =
      .node (vals 1) 0 .root (.node (vals 2) 1 .right .nil .nil)
        (.node (vals 3) 1 .left .nil .nil) := by
  rw [heapTree_eq_node vals 0 (by omega),
    heapTree_eq_node vals 1 (show 1 ≤ 2 ∧ 2 ≤ 3 by omega),
    heapTree_eq_node vals 1 (show 1 ≤ 3 ∧ 3 ≤ 3 by omega),
    heapTree_eq_nil vals (show ¬ (1 ≤ 2 * 2 ∧ 2 * 2 ≤ 3) by omega),
    heapTree_eq_nil vals (show ¬ (1 ≤ 2 * 2 + 1 ∧ 2 * 2 + 1 ≤ 3) by omega),
    heapTree_eq_nil vals (show ¬ (1 ≤ 2 * 3 ∧ 2 * 3 ≤ 3) by omega),
    heapTree_eq_nil vals (show ¬ (1 ≤ 2 * 3 + 1 ∧ 2 * 3 + 1 ≤ 3) by omega),
    dirOfPos_one]
  rw [show dirOfPos 2 = .right by rw [dirOfPos]; norm_num,
    show dirOfPos 3 = .left by rw [dirOfPos]; norm_num]

/-- C1 (counterexample): for the tree with root value 1 and ONLY a left child
of value 2 — constructible through the public `SetLeftChild` — plain
untruncated serialization emits the lines "1", "2", and deserializing those
lines produces a tree whose single child sits in the RIGHT slot (the first
pending slot), so the round trip changes the shape and the direction tag:
the claim "for every tree T … reconstructs … the same shape … and the same
directions" is false. -/
theorem c1_counterexample :
    Deserialize intOfText
        (Serialize intToText
          (BTree.node (1 : Int) 0 .root .nil (.node 2 1 .left .nil .nil)) 65535 false)
        .nil ≠
      BTree.node (1 : Int) 0 .root .nil (.node 2 1 .left .nil .nil) ∧
    Serialize intToText
        (BTree.node (1 : Int) 0 .root .nil (.node 2 1 .left .nil .nil)) 65535 false =
      ["1", "2"] ∧
    Deserialize intOfText ["1", "2"] .nil =
      BTree.node (1 : Int) 0 .root (.node 2 1 .right .nil .nil) .nil := by
  have hser : Serialize intToText
      (BTree.node (1 : Int) 0 .root .nil (.node 2 1 .left .nil .nil)) 65535 false =
      ["1", "2"] := by
    rw [Serialize, serLoop]
    rw [if_neg (by norm_num)]
    rw [show enq (BTree.node (1 : Int) 0 .root .nil (.node 2 1 .left .nil .nil)) =
      [.node 2 1 .left .nil .nil] from rfl]
    rw [show ([] : List (BTree Int)) ++ [BTree.node 2 1 .left .nil .nil] =
      [BTree.node 2 1 .left .nil .nil] from rfl]
    rw [serLoop]
    rw [if_neg (by norm_num)]
    rw [show ([] : List (BTree Int)) ++ enq (BTree.node (2 : Int) 1 .left .nil .nil) =
      [] from rfl]
    rw [serLoop]
    have h1 : lineFor intToText false (BTree.node (1 : Int) 0 .root .nil
        (.node 2 1 .left .nil .nil)) = "1" := by
      rw [lineFor, intToText, if_neg (show ¬ ((1 : Int) < 0) by norm_num),
        show ((1 : Int).toNat) = 1 from rfl, natToChars]
      decide
    have h2 : lineFor intToText false (BTree.node (2 : Int) 1 .left .nil .nil) = "2" := by
      rw [lineFor, intToText, if_neg (show ¬ ((2 : Int) < 0) by norm_num),
        show ((2 : Int).toNat) = 2 from rfl, natToChars]
      decide
    rw [h1, h2]
  refine ⟨?_, hser, by decide⟩
  rw [hser]
  decide

/-- C1 (amended): the round trip holds exactly for the trees the pending-slot
algorithms can produce — those whose occupied slots form a prefix of the
right-before-left breadth-first slot order, i.e. the trees `heapTree vals 1 n 0`
(every output of the Generator or the Deserializer has this form, see
`GenerateTree_eq_heapTree` and `Deserialize_eq_heapTree`).  For every such
non-empty tree whose values have an exactly invertible, non-empty textual
form, serializing in plain mode (no pretty flag, depth limit left at the
`uint16_t` default 65535, which no stored depth of a C++ tree can exceed —
the `depthsLe` hypothesis states that bound in the model) and deserializing
with the inverse parser reconstructs the very same tree — hence identical
shape, breadth-first value sequence, depths and directions. -/
theorem c1_theorem {α : Type} (vals : Nat → α) (n : Nat)
    (toText : α → String) (fromText : String → α) (t0 : BTree α)
    (hn : 1 ≤ n)
    (hinv : ∀ a : α, fromText (toText a) = a)
    (hne : ∀ a : α, toText a ≠ "")
    (hd : depthsLe 65535 (heapTree vals 1 n 0) = true) :
    Deserialize fromText (Serialize toText (heapTree vals 1 n 0) 65535 false) t0 =
      heapTree vals 1 n 0 :=
  roundTrip_heapTree vals n toText fromText t0 hn hinv hne hd

/-- C1 (witness): the round trip instantiated at the three-node Boolean tree,
with text forms "1"/"0" and their inverse parser. -/
theorem c1_witness :
    Deserialize (fun s => s == "1")
        (Serialize (fun b : Bool => if b then "1" else "0")
          (heapTree (fun _ => true) 1 3 0) 65535 false) .nil =
      heapTree (fun _ => true) 1 3 0 :=
  c1_theorem (fun _ => true) 3 (fun b : Bool => if b then "1" else "0")
    (fun s => s == "1") .nil (by norm_num) (by decide) (by decide)
    (by rw [heapTree_three]; decide)

/-- C3 (counterexample): deserializing exactly the lines "5", "3", "8" does
NOT leave the left child absent — the third line fills the root's left slot. -/
theorem c3_counterexample :
    leftOf (Deserialize intOfText ["5", "3", "8"] .nil) ≠ BTree.nil := by
  decide

/-- C3 (amended): deserializing exactly the lines "5", "3", "8" produces a
root of value 5 and depth 0, a right child of value 3, depth 1, direction
RIGHT, and a PRESENT left child of value 8, depth 1, direction LEFT (the
three lines fill root, right slot, left slot in that order). -/
theorem c3_theorem :
    Deserialize intOfText ["5", "3", "8"] .nil =
      BTree.node (5 : Int) 0 .root (.node 3 1 .right .nil .nil)
        (.node 8 1 .left .nil .nil) := by
  decide

/-- C5: for every budget `N ≥ 1` the generated tree has between 1 and `N`
nodes; the root's stored depth is 0 and every child's stored depth is its
parent's plus one (this is `depthOkB 0`); and for `N ≤ 0` the generator still
creates exactly the root node, because the budget check runs after creating
the current node. -/
theorem c5_theorem (N : Int) (vals : Nat → Nat) :
    1 ≤ treeSize (GenerateTree N vals) ∧
    (1 ≤ N → (treeSize (GenerateTree N vals) : Int) ≤ N) ∧
    depthOkB 0 (GenerateTree N vals) = true ∧
    (N ≤ 0 → treeSize (GenerateTree N vals) = 1) := by
  have hchar := (GenerateTree_eq_heapTree N vals).1
  rw [hchar, treeSize_heapTree_root]
  refine ⟨genCount_pos N, ?_, ?_, ?_⟩
  · intro h1
    unfold genCount
    by_cases hml : N ≤ 1
    · rw [if_pos hml]
      omega
    · rw [if_neg hml]
      omega
  · exact depthOkB_heapTree (genVals vals) (genCount N) (genCount N + 1) 1 0 (by omega)
  · intro h0
    unfold genCount
    rw [if_pos (by omega)]

/-- C5 (witness): budget 2 yields a tree of exactly 2 nodes with correct
depth bookkeeping; budget −3 still yields a single-node tree. -/
theorem c5_witness :
    (1 ≤ treeSize (GenerateTree 2 (fun _ => 7)) ∧
      (treeSize (GenerateTree 2 (fun _ => 7)) : Int) ≤ 2 ∧
      depthOkB 0 (GenerateTree 2 (fun _ => 7)) = true) ∧
    treeSize (GenerateTree (-3) (fun _ => 7)) = 1 :=
  ⟨⟨(c5_theorem 2 (fun _ => 7)).1, (c5_theorem 2 (fun _ => 7)).2.1 (by norm_num),
      (c5_theorem 2 (fun _ => 7)).2.2.1⟩,
    (c5_theorem (-3) (fun _ => 7)).2.2.2 (by norm_num)⟩

/-- C8: every value the generator assigns is `rand() % 255`, hence lies in
the closed interval [0, 255] (in fact in [0, 254]), and the random source is
queried exactly once per generated node: the number of `rand()` calls equals
the number of nodes of the produced tree. -/
theorem c8_theorem (N : Int) (vals : Nat → Nat) :
    valuesInRange 0 255 (GenerateTree N vals) = true ∧
    GenerateTreeQueries N vals = treeSize (GenerateTree N vals) := by
  obtain ⟨h1, h2⟩ := GenerateTree_eq_heapTree N vals
  constructor
  · rw [h1]
    refine valuesInRange_heapTree 0 255 (genVals vals) (genCount N) ?_
      (genCount N + 1) 1 0 (by omega)
    intro i
    rw [genVals]
    constructor
    · positivity
    · have hm : vals (i - 1) % 255 < 255 := Nat.mod_lt _ (by omega)
      omega
  · rw [h2, h1, treeSize_heapTree_root]

/-- C10: in every tree built by the Deserializer (from any stream, starting
from a null result pointer) and in every tree built by the Generator, a node
with a left child always has a right child: slots are filled strictly in FIFO
order and a node's right slot is enqueued before its left slot. -/
theorem c10_theorem :
    (∀ (α : Type) (fromText : String → α) (lines : List String),
      leftImpliesRight (Deserialize fromText lines .nil) = true) ∧
    (∀ (N : Int) (vals : Nat → Nat),
      leftImpliesRight (GenerateTree N vals) = true) := by
  constructor
  · intro α fromText lines
    cases hp : parsedValues fromText lines with
    | nil =>
        rw [Deserialize, deserLoop_eq_fillLoop, hp]
        rfl
    | cons v vs =>
        rw [Deserialize_eq_heapTree fromText lines .nil v vs hp]
        exact leftImpliesRight_heapTree _ _ (vs.length + 2) 1 0 (by omega) (by omega)
  · intro N vals
    rw [(GenerateTree_eq_heapTree N vals).1]
    exact leftImpliesRight_heapTree _ _ (genCount N + 1) 1 0 (by omega) (by omega)

/-- C4 (counterexample): walking a root with both children and
`include_start = false` visits the LEFT child first: the source pushes
`mLeft` before `mRight` when seeding the frontier (btree.hpp lines 152-163),
so the visit order is not the right-before-left order the claim asserts. -/
theorem c4_counterexample :
    walk (BTree.node (0 : Int) 0 .root (.node 1 1 .right .nil .nil)
        (.node 2 1 .left .nil .nil)) false =
      [BTree.node (2 : Int) 1 .left .nil .nil, .node 1 1 .right .nil .nil] ∧
    [BTree.node (2 : Int) 1 .left .nil .nil, .node 1 1 .right .nil .nil] ≠
      [BTree.node (1 : Int) 1 .right .nil .nil, .node 2 1 .left .nil .nil] := by
  constructor
  · rw [walk, if_neg (by simp), seedNoSelf]
    rw [show sideList (BTree.node (2 : Int) 1 .left .nil .nil) ++
      sideList (BTree.node (1 : Int) 1 .right .nil .nil) =
      [BTree.node (2 : Int) 1 .left .nil .nil,
        BTree.node (1 : Int) 1 .right .nil .nil] from rfl]
    rw [walkQueue]
    rw [show [BTree.node (1 : Int) 1 .right .nil .nil] ++
      enq (BTree.node (2 : Int) 1 .left .nil .nil) =
      [BTree.node (1 : Int) 1 .right .nil .nil] from rfl]
    rw [walkQueue]
    rw [show ([] : List (BTree Int)) ++ enq (BTree.node (1 : Int) 1 .right .nil .nil) =
      [] from rfl]
    rw [walkQueue]
  · decide

/-- C4 (amended): for each dequeued node the right child is enqueued before
the left child (with `include_start = true` and both children present, the
first three visited nodes are the start node, its right child, then its left
child); but when `include_start = false` the start node's children seed the
frontier LEFT before RIGHT (`mLeft` is pushed first), so the first two
visited nodes are the left child and then the right child. -/
theorem c4_theorem {α : Type} (v : α) (d : Nat) (dir : TreeDir) (r l : BTree α)
    (hr : isNil r = false) (hl : isNil l = false) :
    (walk (.node v d dir r l) false).take 2 = [l, r] ∧
    (walk (.node v d dir r l) true).take 3 = [.node v d dir r l, r, l] := by
  cases r with
  | nil => simp [isNil] at hr
  | node vr dr dirr rr rl =>
      cases l with
      | nil => simp [isNil] at hl
      | node vl dl dirl lr ll =>
          constructor
          · rw [walk, if_neg (by simp), seedNoSelf]
            rw [show sideList (BTree.node vl dl dirl lr ll) ++
              sideList (BTree.node vr dr dirr rr rl) =
              BTree.node vl dl dirl lr ll :: BTree.node vr dr dirr rr rl :: []
              from rfl]
            rw [walkQueue]
            rw [show (BTree.node vr dr dirr rr rl :: []) ++
              enq (BTree.node vl dl dirl lr ll) =
              BTree.node vr dr dirr rr rl :: enq (BTree.node vl dl dirl lr ll)
              from rfl]
            rw [walkQueue]
            simp [List.take]
          · rw [walk, if_pos rfl]
            rw [walkQueue]
            rw [show ([] : List (BTree α)) ++
              enq (BTree.node v d dir (.node vr dr dirr rr rl) (.node vl dl dirl lr ll)) =
              BTree.node vr dr dirr rr rl :: BTree.node vl dl dirl lr ll :: []
              from rfl]
            rw [walkQueue]
            rw [show (BTree.node vl dl dirl lr ll :: []) ++
              enq (BTree.node vr dr dirr rr rl) =
              BTree.node vl dl dirl lr ll :: enq (BTree.node vr dr dirr rr rl)
              from rfl]
            rw [walkQueue]
            simp [List.take]

/-- C4 (witness): the amended order statement at a concrete two-level tree. -/
theorem c4_witness :
    (walk (BTree.node (0 : Int) 0 .root (.node 1 1 .right .nil .nil)
        (.node 2 1 .left .nil .nil)) false).take 2 =
      [BTree.node (2 : Int) 1 .left .nil .nil, .node 1 1 .right .nil .nil] ∧
    (walk (BTree.node (0 : Int) 0 .root (.node 1 1 .right .nil .nil)
        (.node 2 1 .left .nil .nil)) true).take 3 =
      [BTree.node (0 : Int) 0 .root (.node 1 1 .right .nil .nil)
          (.node 2 1 .left .nil .nil),
        .node 1 1 .right .nil .nil, .node 2 1 .left .nil .nil] :=
  c4_theorem (0 : Int) 0 .root (.node 1 1 .right .nil .nil)
    (.node 2 1 .left .nil .nil) (by decide) (by decide)

/-- C6: for every node, the subtree ratio equals the sum of
`depth * value` over the node itself and all of its descendants, divided by
`max 1 (number of descendants)` (the node is counted in the numerator but
excluded from the denominator); in particular for a node with no children the
ratio equals `depth * value`. -/
theorem c6_theorem (v : Int) (d : Nat) (dir : TreeDir) (r l : BTree Int) :
    GetWeightSumChildrenRatioQ (.node v d dir r l) =
      ((nodeWeight (.node v d dir r l) : Int) : ℚ) /
        ((max 1 (treeSize (.node v d dir r l) - 1) : Nat) : ℚ) ∧
    GetWeightSumChildrenRatioQ (.node v d dir .nil .nil) =
      ((d : Nat) : ℚ) * ((v : Int) : ℚ) := by
  constructor
  · simp only [GetWeightSumChildrenRatioQ]
    rw [walk_false_map_ownWeight_sum, walk_false_length]
    congr 2
    · simp only [ownWeight, nodeWeight]
      ring
    · simp only [treeSize]
      omega
  · simp only [GetWeightSumChildrenRatioQ]
    rw [show walk (BTree.node v d dir .nil .nil) false = [] by
      rw [walk, if_neg (by simp), seedNoSelf,
        show sideList (BTree.nil : BTree Int) ++ sideList (BTree.nil : BTree Int) =
          ([] : List (BTree Int)) from rfl, walkQueue]]
    simp only [List.length_nil, List.map_nil, List.sum_nil, ownWeight]
    norm_num

/-- C9: structure of the serializer output.  First conjunct (any tree, any
depth limit, any pretty flag): the output consists of the lines of the
visited leaves up to and including the first leaf whose depth exceeds the
limit, followed by the marker line "..." — and nothing after the marker; when
no visited leaf is too deep, no marker appears and the take-while prefix is
the whole walk.  Second conjunct: with the depth limit left at its `uint16_t`
default 65535 (the "no depth limit" call) a tree whose stored depths respect
the `uint16_t` range — every tree of the C++ program — has every node
emitted and never a marker.  (`leaf->mDepth > skipDeep` can never hold
there, and `skipDeep != -1` is always true under integer promotion.) -/
theorem c9_theorem {α : Type} (toText : α → String) (t : BTree α)
    (skipDeep : Nat) (pretty : Bool) :
    (Serialize toText t skipDeep pretty =
      ((walkQueue [t]).takeWhile (fun x => decide (depthOf x ≤ skipDeep))).map
          (lineFor toText pretty) ++
        (((walkQueue [t]).dropWhile (fun x => decide (depthOf x ≤ skipDeep))).head?.elim
          [] (fun x => [lineFor toText pretty x, "..."]))) ∧
    (depthsLe 65535 t = true →
      Serialize toText t 65535 pretty = (walkQueue [t]).map (lineFor toText pretty)) := by
  constructor
  · rw [Serialize, serLoop_eq_emitLines, emitLines_eq_takeWhile]
  · intro hd
    rw [Serialize, serLoop_eq_emitLines, emitLines_all]
    intro x hx
    rw [mem_walkQueue_iff] at hx
    simp only [List.flatMap_cons, List.flatMap_nil, List.append_nil] at hx
    exact depthsLe_mem hd hx

/-- C9 (witness): the output structure at a concrete two-node tree with the
default depth limit. -/
theorem c9_witness :
    ((Serialize (fun z : Int => "x") (BTree.node (5 : Int) 0 .root .nil
        (.node 6 1 .left .nil .nil)) 65535 false =
      ((walkQueue [BTree.node (5 : Int) 0 .root .nil
          (.node 6 1 .left .nil .nil)]).takeWhile
            (fun x => decide (depthOf x ≤ 65535))).map (lineFor (fun z : Int => "x") false) ++
        (((walkQueue [BTree.node (5 : Int) 0 .root .nil
          (.node 6 1 .left .nil .nil)]).dropWhile
            (fun x => decide (depthOf x ≤ 65535))).head?.elim
          [] (fun x => [lineFor (fun z : Int => "x") false x, "..."]))) ∧
      Serialize (fun z : Int => "x") (BTree.node (5 : Int) 0 .root .nil
          (.node 6 1 .left .nil .nil)) 65535 false =
        (walkQueue [BTree.node (5 : Int) 0 .root .nil
          (.node 6 1 .left .nil .nil)]).map (lineFor (fun z : Int => "x") false)) :=
  ⟨(c9_theorem (fun z : Int => "x") (BTree.node (5 : Int) 0 .root .nil
      (.node 6 1 .left .nil .nil)) 65535 false).1,
    (c9_theorem (fun z : Int => "x") (BTree.node (5 : Int) 0 .root .nil
      (.node 6 1 .left .nil .nil)) 65535 false).2 (by decide)⟩

/-- C2: the min/max search as `main` performs it violates the claim.  `main`
seeds the accumulators with the finite sentinels `minRatio = 99999999.0` and
`maxRatio = 0.0` (main.cpp lines 126-130), not with values the first ratio
always replaces.  On a single-node tree the only subtree ratio is
`0 * value / 1 = 0`, and the strict comparison `0 > 0.0` fails, so the max
accumulator is never replaced and `maxRatioSubtree` stays null (`main` then
dereferences it); the min side does get set, showing the walk did visit the
node. -/
theorem c2_theorem :
    (mainSearch (.node (5 : Int) 0 .root .nil .nil)).maxHolder = none ∧
    (mainSearch (.node (5 : Int) 0 .root .nil .nil)).maxVal = 0 ∧
    (mainSearch (.node (5 : Int) 0 .root .nil .nil)).minHolder =
      some (.node (5 : Int) 0 .root .nil .nil) := by
  have hwq : walkQueue [BTree.node (5 : Int) 0 .root .nil .nil] =
      [BTree.node (5 : Int) 0 .root .nil .nil] := by
    rw [walkQueue,
      show ([] : List (BTree Int)) ++ enq (BTree.node (5 : Int) 0 .root .nil .nil) =
        [] from rfl, walkQueue]
  have hrat : GetWeightSumChildrenRatioQ (.node (5 : Int) 0 .root .nil .nil) = 0 := by
    simp only [GetWeightSumChildrenRatioQ]
    rw [show walk (BTree.node (5 : Int) 0 .root .nil .nil) false = [] by
      rw [walk, if_neg (by simp), seedNoSelf,
        show sideList (BTree.nil : BTree Int) ++ sideList (BTree.nil : BTree Int) =
          ([] : List (BTree Int)) from rfl, walkQueue]]
    norm_num [ownWeight]
  rw [mainSearch, GetMinMaxWeightSumChildrenRatioQ, hwq, List.foldl_cons, List.foldl_nil]
  simp only [hrat]
  norm_num

/-- C7: the destructor double-deletes.  For the three-node right chain
1 → 2 → 3, the root's destructor walks its two descendants and deletes each;
deleting node 2 first runs node 2's own destructor, which already deletes
node 3 — and the outer walk then deletes node 3 again (reading the freed
node's child pointers on the way).  The delete trace contains node 3 twice:
three delete calls for a subtree of only two descendants, so the claim that
every node is deleted exactly once is violated by the code. -/
theorem c7_theorem :
    destructorDeletes (BTree.node (1 : Int) 0 .root
        (.node 2 1 .right (.node 3 2 .right .nil .nil) .nil) .nil) =
      [BTree.node (2 : Int) 1 .right (.node 3 2 .right .nil .nil) .nil,
        .node 3 2 .right .nil .nil, .node 3 2 .right .nil .nil] ∧
    List.count (BTree.node (3 : Int) 2 .right .nil .nil)
      (destructorDeletes (BTree.node (1 : Int) 0 .root
        (.node 2 1 .right (.node 3 2 .right .nil .nil) .nil) .nil)) = 2 ∧
    treeSize (BTree.node (1 : Int) 0 .root
      (.node 2 1 .right (.node 3 2 .right .nil .nil) .nil) .nil) = 3 := by
  have hw3 : walk (BTree.node (3 : Int) 2 .right .nil .nil) false = [] := by
    rw [walk, if_neg (by simp), seedNoSelf,
      show sideList (BTree.nil : BTree Int) ++ sideList (BTree.nil : BTree Int) =
        ([] : List (BTree Int)) from rfl, walkQueue]
  have hw2 : walk (BTree.node (2 : Int) 1 .right (.node 3 2 .right .nil .nil) .nil)
      false = [BTree.node (3 : Int) 2 .right .nil .nil] := by
    rw [walk, if_neg (by simp), seedNoSelf,
      show sideList (BTree.nil : BTree Int) ++
        sideList (BTree.node (3 : Int) 2 .right .nil .nil) =
        [BTree.node (3 : Int) 2 .right .nil .nil] from rfl, walkQueue,
      show [] ++ enq (BTree.node (3 : Int) 2 .right .nil .nil) =
        ([] : List (BTree Int)) from rfl, walkQueue]
  have hwc : walk (BTree.node (1 : Int) 0 .root
      (.node 2 1 .right (.node 3 2 .right .nil .nil) .nil) .nil) false =
      [BTree.node (2 : Int) 1 .right (.node 3 2 .right .nil .nil) .nil,
        .node 3 2 .right .nil .nil] := by
    rw [walk, if_neg (by simp), seedNoSelf,
      show sideList (BTree.nil : BTree Int) ++
        sideList (BTree.node (2 : Int) 1 .right (.node 3 2 .right .nil .nil) .nil) =
        [BTree.node (2 : Int) 1 .right (.node 3 2 .right .nil .nil) .nil] from rfl,
      walkQueue,
      show [] ++ enq (BTree.node (2 : Int) 1 .right (.node 3 2 .right .nil .nil) .nil) =
        [BTree.node (3 : Int) 2 .right .nil .nil] from rfl, walkQueue,
      show [] ++ enq (BTree.node (3 : Int) 2 .right .nil .nil) =
        ([] : List (BTree Int)) from rfl, walkQueue]
  have hd3 : delList (BTree.node (3 : Int) 2 .right .nil .nil) =
      [BTree.node (3 : Int) 2 .right .nil .nil] := by
    rw [delList_eq, destructorDeletes_eq_flatMap, hw3]
    rfl
  have hd2 : delList (BTree.node (2 : Int) 1 .right (.node 3 2 .right .nil .nil) .nil) =
      [BTree.node (2 : Int) 1 .right (.node 3 2 .right .nil .nil) .nil,
        .node 3 2 .right .nil .nil] := by
    rw [delList_eq, destructorDeletes_eq_flatMap, hw2, List.flatMap_cons,
      List.flatMap_nil, hd3]
    rfl
  have hdc : destructorDeletes (BTree.node (1 : Int) 0 .root
      (.node 2 1 .right (.node 3 2 .right .nil .nil) .nil) .nil) =
      [BTree.node (2 : Int) 1 .right (.node 3 2 .right .nil .nil) .nil,
        .node 3 2 .right .nil .nil, .node 3 2 .right .nil .nil] := by
    rw [destructorDeletes_eq_flatMap, hwc, List.flatMap_cons, List.flatMap_cons,
      List.flatMap_nil, hd2, hd3]
    rfl
  refine ⟨hdc, ?_, by decide⟩
  rw [hdc]
  decide
